import Mathlib

/-!
# Verification of the simlib AVL dictionary (`avl_dict.hh`)

Shallow embedding of the pool-based AVL dictionary framework:

* `AVLTree` embeds the node graph reachable from a subtree handle: in the
  C++ source every occupied node owns its two child handles exclusively
  (`kid[L]`, `kid[R]`), the index `nil = 0` is the permanent sentinel with
  both children equal to itself and height 0, so a subtree handle denotes
  an inductive tree.  A C++ function `f(size_type& x, ...)` that mutates
  the subtree rooted at the handle `x` becomes a Lean function returning
  the new subtree.
* Heights are stored in a `uint8_t` in the source; they are modelled as
  `Nat` because for any realizable pool (at most `2^64 - 1` nodes) the AVL
  height bound keeps the stored value far below 256, so the byte never
  wraps.
* `AVLPoolAllocator` is embedded separately (`PoolState` below) for the
  allocator-level claims; growth, the free list and the two `THROW`
  ("AllocatorExhausted") sites are translated from the source.  The index
  type's maximal value `numeric_limits<size_type>::max()` becomes the
  parameter `maxCap`.

The dictionary engine is parameterized, as the template is, over the
payload type `π`, the key type `κ`, the key accessor (`Node::key()`) and
the comparator `cmp` (`Comp` — a strict weak order returning `Bool`).
-/

/-- A subtree of the dictionary: the sentinel `nil` (index 0, height 0,
children pointing to itself) or an occupied node `AVLNodeBase { kid[L],
kid[R], h }` together with its payload. -/
inductive AVLTree (π : Type) where
  | nil : AVLTree π
  | node (kidL : AVLTree π) (kidR : AVLTree π) (h : Nat) (payload : π)
  deriving DecidableEq, Repr

namespace AVLTree

variable {π : Type} {κ : Type}

/-- `pool[x].h`; the sentinel has height 0 for the lifetime of the
dictionary. -/
def height : AVLTree π → Nat
  | nil => 0
  | node _ _ h _ => h

/-- `x == nil` test used throughout the engine. -/
def isNil : AVLTree π → Bool
  | nil => true
  | node _ _ _ _ => false

/-- `seth(x)`: `pool[x].h = 1 + max(pool[pool[x].kid[L]].h,
pool[pool[x].kid[R]].h)`. -/
def seth : AVLTree π → AVLTree π
  | nil => nil
  | node l r _ p => node l r (1 + max (height l) (height r)) p

/-- `pool[x].kid[dir]` with `dir = false ↦ L`, `dir = true ↦ R`; reading a
child of the sentinel yields the sentinel (`pool[nil].kid = {nil, nil}`). -/
def kid : AVLTree π → Bool → AVLTree π
  | nil, _ => nil
  | node l _ _ _, false => l
  | node _ r _ _, true => r

/-- `pool[x].kid[dir] = c`; never performed on the sentinel by the engine. -/
def setKid : AVLTree π → Bool → AVLTree π → AVLTree π
  | nil, _, _ => nil
  | node _ r h p, false, c => node c r h p
  | node l _ h p, true, c => node l c h p

/-- C++ `int` division truncates toward zero (used by
`rebalance_and_seth` on the signed child-height difference). -/
def cdiv (a : Int) (b : Int) : Int :=
  if 0 ≤ a then a / b else -((-a) / b)

/-- `rotate(x, dir)`: the child `res = kid[dir ^ 1]` is rotated up, `x`
becomes `res`'s `dir` child and gets its height recomputed. -/
def rotate (x : AVLTree π) (dir : Bool) : AVLTree π :=
  let revdir := !dir
  let res := kid x revdir
  let x' := seth (setKid x revdir (kid res dir))
  setKid res dir x'

/-- `rotate_and_seth(x, dir)`: rotate, then recompute the new subtree
root's height as well. -/
def rotate_and_seth (x : AVLTree π) (dir : Bool) : AVLTree π :=
  seth (rotate x dir)

/-- `rebalance_and_seth(x)`: recompute the balance factor
`b = (h(kid[L]) - h(kid[R])) / 2`; on `b ≠ 0` rotate (a double rotation
when the heavy child `aux_B` leans opposite, detected by
`h(aux_B.kid[R]) - h(aux_B.kid[L]) == b`), otherwise only `seth`.
`dir = (b + 1) >> 1` maps `b = -1 ↦ L`, `b = 1 ↦ R`, written here as
`1 ≤ b` (the source asserts `-1 ≤ b ≤ 1`). -/
def rebalance_and_seth (x : AVLTree π) : AVLTree π :=
  let b : Int := cdiv ((height (kid x false) : Int) - (height (kid x true) : Int)) 2
  if b ≠ 0 then
    let dir : Bool := 1 ≤ b
    let revdir := !dir
    let aux_B := kid x revdir
    if (height (kid aux_B true) : Int) - (height (kid aux_B false) : Int) = b then
      let aux_C := kid aux_B dir
      let x' := seth (setKid x revdir (kid aux_C dir))
      let aux_B' := seth (setKid aux_B dir (kid aux_C revdir))
      seth (setKid (setKid aux_C dir x') revdir aux_B')
    else
      rotate_and_seth x dir
  else
    seth x

/-- A node detached from every tree: its payload and its stored height
byte.  Freshly allocated nodes (`allocate_node(..., nil, nil, uint8_t{0})`)
carry height 0; a node returned by `pull_out` keeps the height it had when
it was pulled out. -/
structure DNode (π : Type) where
  p : π
  h : Nat
  deriving DecidableEq, Repr

/-- The tree consisting of a single detached node (`kid = {nil, nil}`). -/
def DNode.toTree (d : DNode π) : AVLTree π :=
  node nil nil d.h d.p

/-- In-order traversal as a list (`for_each` visiting left subtree, node,
right subtree). -/
def toList : AVLTree π → List π
  | nil => []
  | node l r _ p => toList l ++ p :: toList r

/-- Number of occupied nodes in a subtree. -/
def count : AVLTree π → Nat
  | nil => 0
  | node l r _ _ => count l + count r + 1

section Engine

variable (key : π → κ) (cmp : κ → κ → Bool)

/-- `AVLDictionary::insert(size_type& x, size_type inserted)`:
unconditional insertion (multi-containers); descend by
`dir = compare(pool[x].key(), pool[inserted].key())`, attach at a nil
leaf, rebalance every ancestor on the way back up. -/
def insert : AVLTree π → DNode π → AVLTree π
  | nil, ins => ins.toTree
  | node l r h p, ins =>
    if cmp (key p) (key ins.p) then
      rebalance_and_seth (node l (insert r ins) h p)
    else
      rebalance_and_seth (node (insert l ins) r h p)

/-- `AVLDictionary::insert_if_not_exists(size_type& x, size_type
inserted)`: returns the new subtree and `none` if the insertion took place
(the source returns `inserted` itself), or `some q` where `q` is the
payload of the already-present node that was found. -/
def insert_if_not_exists : AVLTree π → DNode π → AVLTree π × Option π
  | nil, ins => (ins.toTree, none)
  | node l r h p, ins =>
    if cmp (key p) (key ins.p) then
      let q := insert_if_not_exists r ins
      (rebalance_and_seth (node l q.1 h p), q.2)
    else if cmp (key ins.p) (key p) then
      let q := insert_if_not_exists l ins
      (rebalance_and_seth (node q.1 r h p), q.2)
    else
      (node l r h p, some p)

/-- `AVLDictionary::emplace_if_not_exists_impl(x, key)`: constructs the
payload `mk k` lazily only at a nil leaf; on a duplicate returns the found
node's payload.  The allocator may grow during the recursion, which is
invisible at the tree level (index stability, claim C9). -/
def emplace_if_not_exists (mk : κ → π) : AVLTree π → κ → AVLTree π × Option π
  | nil, k => ((DNode.toTree ⟨mk k, 0⟩), none)
  | node l r h p, k =>
    if cmp (key p) k then
      let q := emplace_if_not_exists mk r k
      (rebalance_and_seth (node l q.1 h p), q.2)
    else if cmp k (key p) then
      let q := emplace_if_not_exists mk l k
      (rebalance_and_seth (node q.1 r h p), q.2)
    else
      (node l r h p, some p)

/-- `AVLDictionary::insert_or_replace(size_type& x, size_type inserted)`:
on a duplicate the new node takes over the old node's children and height
(`pool[inserted].kid = pool[x].kid; pool[inserted].h = pool[x].h`), the
old node is deallocated, and `false` is returned; otherwise the node is
inserted and `true` is returned. -/
def insert_or_replace : AVLTree π → DNode π → AVLTree π × Bool
  | nil, ins => (ins.toTree, true)
  | node l r h p, ins =>
    if cmp (key p) (key ins.p) then
      let q := insert_or_replace r ins
      (rebalance_and_seth (node l q.1 h p), q.2)
    else if cmp (key ins.p) (key p) then
      let q := insert_or_replace l ins
      (rebalance_and_seth (node q.1 r h p), q.2)
    else
      (node l r h ins.p, false)

/-- `AVLDictionary::pull_out_rightmost(size_type& x)`: detaches the
rightmost node of a (non-nil) subtree, rebalancing on the way up; returns
the new subtree and the detached node (payload and stored height).  Never
called on `nil` by the engine; modelled as `none` there. -/
def pull_out_rightmost : AVLTree π → AVLTree π × Option (DNode π)
  | nil => (nil, none)
  | node l r h p =>
    match r with
    | nil => (l, some ⟨p, h⟩)
    | node rl rr rh rp =>
      let q := pull_out_rightmost (node rl rr rh rp)
      (rebalance_and_seth (node l q.1 h p), q.2)

/-- `AVLDictionary::erase_impl(size_type& x, key, to_ret_val)`: the shared
skeleton of `erase` and `pull_out`.  Returns the new subtree, and `some`
of the removed node's payload and stored height when a node matching the
key was found (`to_ret_val(x)`), `none` otherwise (`to_ret_val()`).  When
the matched node's left child is nil its right child is spliced into its
place; otherwise the in-order predecessor is pulled out of the left
subtree and re-pointed to the matched node's children. -/
def erase_impl : AVLTree π → κ → AVLTree π × Option (π × Nat)
  | nil, _ => (nil, none)
  | node l r h p, k =>
    if cmp (key p) k then
      let q := erase_impl r k
      (rebalance_and_seth (node l q.1 h p), q.2)
    else if cmp k (key p) then
      let q := erase_impl l k
      (rebalance_and_seth (node q.1 r h p), q.2)
    else
      match l with
      | nil =>
        match r with
        | nil => (nil, some (p, h))
        | node rl rr rh rp =>
          (rebalance_and_seth (node rl rr rh rp), some (p, h))
      | node ll lr lh lp =>
        let q := pull_out_rightmost (node ll lr lh lp)
        match q.2 with
        | none => (nil, some (p, h))
        | some d => (rebalance_and_seth (node q.1 r d.h d.p), some (p, h))

/-- `AVLDictionary::erase(size_type& x, key)` as instantiated with the
deallocating `SemiLambda`: returns whether an erase occurred. -/
def erase (t : AVLTree π) (k : κ) : AVLTree π × Bool :=
  let q := erase_impl key cmp t k
  (q.1, q.2.isSome)

/-- `AVLDictionary::pull_out(size_type& x, key)`: like `erase`, but the
matched node is detached (children reset to nil, height byte untouched)
and returned instead of being destructed. -/
def pull_out (t : AVLTree π) (k : κ) : AVLTree π × Option (DNode π) :=
  let q := erase_impl key cmp t k
  (q.1, q.2.map fun d => ⟨d.1, d.2⟩)

/-- `AVLDictionary::find(key)`: iterative descent; `some` of the found
node's payload, `none` when no node's key is equivalent to `k`. -/
def find : AVLTree π → κ → Option π
  | nil, _ => none
  | node l r _ p, k =>
    if cmp (key p) k then find r k
    else if cmp k (key p) then find l k
    else some p

/-- `AVLDictionary::dirmost(root, direction)` composed with
`AVLDictContainer::front/back`: follow one child direction to the end,
`none` on the empty tree. -/
def dirmost : AVLTree π → Bool → Option π
  | nil, _ => none
  | node l _ _ p, false =>
    match l with
    | nil => some p
    | node ll lr lh lp => dirmost (node ll lr lh lp) false
  | node _ r _ p, true =>
    match r with
    | nil => some p
    | node rl rr rh rp => dirmost (node rl rr rh rp) true

end Engine

section Filter

variable (key : π → κ) (cmp : κ → κ → Bool) (cond : π → Bool)

/-- The `for_each(processor)` pass of `AVLDictionary::filter`: the
processor records the key of the first in-order element satisfying
`condition` and stops the traversal. -/
def firstSat : AVLTree π → Option κ
  | nil => none
  | node l r _ p =>
    match firstSat l with
    | some k => some k
    | none => if cond p then some (key p) else firstSat r

/-- The `foreach_since_upper_bound(key, processor)` pass: same processor,
but visiting only the elements whose key is strictly greater than `k`. -/
def firstSatSinceUB : AVLTree π → κ → Option κ
  | nil, _ => none
  | node l r _ p, k =>
    if cmp k (key p) then
      match firstSatSinceUB l k with
      | some k' => some k'
      | none => if cond p then some (key p) else firstSat key cond r
    else
      firstSatSinceUB r k

/-- The `while (key_opt.has_value())` loop of `filter`: erase the recorded
key, then rescan from the first element strictly greater than it.  The
C++ loop is unbounded; each iteration erases one present element, so
`count t` units of fuel always suffice (proved for well-formed trees). -/
def filterLoop : Nat → AVLTree π → Option κ → AVLTree π
  | _, t, none => t
  | 0, t, some _ => t
  | fuel + 1, t, some k =>
    let t' := (erase key cmp t k).1
    filterLoop fuel t' (firstSatSinceUB key cmp cond t' k)

/-- `AVLDictionary::filter(condition)` (exposed on Set and Map): removes
every element for which `condition` holds. -/
def filter (t : AVLTree π) : AVLTree π :=
  filterLoop key cmp cond (count t) t (firstSat key cond t)

end Filter

end AVLTree

open AVLTree

/-- The dictionary state visible to containers: the root subtree and the
`size_` counter.  `size_` is incremented by `allocate_node` and
decremented by `deallocate_node`, exactly as in the source. -/
structure Dict (π : Type) where
  root : AVLTree π
  size_ : Nat
  deriving DecidableEq, Repr

namespace Dict

variable {π : Type} {κ : Type} (key : π → κ) (cmp : κ → κ → Bool)

/-- The freshly constructed dictionary: `root = nil`, `size_ = 0`. -/
def empty : Dict π := ⟨AVLTree.nil, 0⟩

/-- `AVLDictSet::emplace` / `AVLDictSet::insert`: allocate a node
(`++size_`), try `insert_if_not_exists`; on a collision deallocate the
candidate (`--size_`) and report `false`. -/
def emplaceSet (d : Dict π) (v : π) : Dict π × Bool :=
  let q := insert_if_not_exists key cmp d.root ⟨v, 0⟩
  match q.2 with
  | none => (⟨q.1, d.size_ + 1⟩, true)
  | some _ => (⟨q.1, d.size_ + 1 - 1⟩, false)

/-- `AVLDictMultiset::emplace` / `insert` (also `AVLDictMultimap`):
allocate a node and insert unconditionally. -/
def emplaceMulti (d : Dict π) (v : π) : Dict π :=
  ⟨AVLTree.insert key cmp d.root ⟨v, 0⟩, d.size_ + 1⟩

/-- `AVLDictMap::emplace` / `insert`: allocate a node and
`insert_or_replace` it; a replace deallocates the displaced node
(`--size_`).  Returns whether the insertion (rather than a replace) took
place. -/
def emplaceMap (d : Dict π) (v : π) : Dict π × Bool :=
  let q := insert_or_replace key cmp d.root ⟨v, 0⟩
  (⟨q.1, if q.2 then d.size_ + 1 else d.size_ + 1 - 1⟩, q.2)

/-- `AVLDictMap::operator[]`: `emplace_if_not_exists` with a payload
built from the key alone (`construct_node_data`); returns the payload of
the node the returned id designates. -/
def getOrEmplace (mk : κ → π) (d : Dict π) (k : κ) : Dict π × π :=
  let q := emplace_if_not_exists key cmp mk d.root k
  match q.2 with
  | none => (⟨q.1, d.size_ + 1⟩, mk k)
  | some p => (⟨q.1, d.size_⟩, p)

/-- `AVLDictionary::erase(key)`: a successful erase deallocates the node
(`--size_`). -/
def erase (d : Dict π) (k : κ) : Dict π × Bool :=
  let q := AVLTree.erase key cmp d.root k
  (⟨q.1, if q.2 then d.size_ - 1 else d.size_⟩, q.2)

/-- `AVLDictMap::alter_key(old_key, new_key)`: pull the node out (no
size change), overwrite its key field in place (`setk`), reinsert via
`insert_or_replace` (a replace deallocates the collided node).  Returns
`(changed, replaced_existing)`. -/
def alterKeyMap (setk : π → κ → π) (d : Dict π) (old new : κ) :
    Dict π × (Bool × Bool) :=
  let q := pull_out key cmp d.root old
  match q.2 with
  | none => (⟨q.1, d.size_⟩, (false, false))
  | some x =>
    let r := insert_or_replace key cmp q.1 ⟨setk x.p new, x.h⟩
    (⟨r.1, if r.2 then d.size_ else d.size_ - 1⟩, (true, !r.2))

/-- `AVLDictMultimap::alter_key(old_key, new_key)`: pull out, overwrite
the key, reinsert unconditionally. -/
def alterKeyMulti (setk : π → κ → π) (d : Dict π) (old new : κ) :
    Dict π × Bool :=
  let q := pull_out key cmp d.root old
  match q.2 with
  | none => (⟨q.1, d.size_⟩, false)
  | some x =>
    (⟨AVLTree.insert key cmp q.1 ⟨setk x.p new, x.h⟩, d.size_⟩, true)

/-- `AVLDictionary::clear()`: `delete_subtree(root); root = nil;`.
`delete_subtree` returns immediately when the node type is trivially
destructible (`if constexpr (std::is_trivially_destructible_v<Node>)`),
skipping every `deallocate_node` call — and with it every `--size_` and
every free-list push; otherwise it deallocates each node of the subtree. -/
def clear (trivialDtor : Bool) (d : Dict π) : Dict π :=
  if trivialDtor then ⟨AVLTree.nil, d.size_⟩
  else ⟨AVLTree.nil, d.size_ - count d.root⟩

/-- `size()` / `empty()`. -/
def size (d : Dict π) : Nat := d.size_

/-- `AVLDictContainer::front` (`dirmost(root, L)`). -/
def front (d : Dict π) : Option π := dirmost d.root false

/-- `AVLDictContainer::back` (`dirmost(root, R)`). -/
def back (d : Dict π) : Option π := dirmost d.root true

end Dict

namespace AVLTree

variable {π : Type} {κ : Type}

/-- One public mutating operation of a dictionary, as named by the
containers: unconditional insert (Multiset/Multimap), `insert_if_not_exists`
(Set), `insert_or_replace` (Map emplace/insert), `emplace_if_not_exists`
(Map `operator[]`), and erase by key. -/
inductive DictOp (π : Type) (κ : Type) where
  | insertU (q : π)
  | insertINE (q : π)
  | insertIOR (q : π)
  | emplaceINE (k : κ)
  | eraseK (k : κ)
  deriving DecidableEq, Repr

/-- Effect of one operation on the root subtree. -/
def applyOp (key : π → κ) (cmp : κ → κ → Bool) (mk : κ → π)
    (t : AVLTree π) : DictOp π κ → AVLTree π
  | .insertU q => insert key cmp t ⟨q, 0⟩
  | .insertINE q => (insert_if_not_exists key cmp t ⟨q, 0⟩).1
  | .insertIOR q => (insert_or_replace key cmp t ⟨q, 0⟩).1
  | .emplaceINE k => (emplace_if_not_exists key cmp mk t k).1
  | .eraseK k => (AVLTree.erase key cmp t k).1

/-- Root subtree after a sequence of operations applied to an initially
empty dictionary (or to any starting tree `t`). -/
def applyOps (key : π → κ) (cmp : κ → κ → Bool) (mk : κ → π)
    (t : AVLTree π) (ops : List (DictOp π κ)) : AVLTree π :=
  ops.foldl (applyOp key cmp mk) t

/-- Both children's stored heights differ by at most one, at every node
(first half of the spec's AVL balance invariant). -/
def balanced : AVLTree π → Bool
  | nil => true
  | node l r _ _ =>
    decide (height l ≤ height r + 1) && decide (height r ≤ height l + 1) &&
      balanced l && balanced r

/-- The spec's literal height equation: every node stores
`1 + max(height(left), height(right))`. -/
def hinvStrict : AVLTree π → Bool
  | nil => true
  | node l r h _ =>
    decide (h = 1 + max (height l) (height r)) && hinvStrict l && hinvStrict r

/-- The height equation the code actually maintains: every node stores
`1 + max` of its children's stored heights, except that a childless node
may still carry the height 0 it was allocated with
(`allocate_node(..., nil, nil, uint8_t{0})` — no `seth` runs on a freshly
inserted leaf). -/
def hinv : AVLTree π → Bool
  | nil => true
  | node l r h _ =>
    (decide (h = 1 + max (height l) (height r)) ||
      (isNil l && isNil r && decide (h = 0))) && hinv l && hinv r

/-- `pr` holds for every payload of the subtree. -/
def allTree (pr : π → Bool) : AVLTree π → Bool
  | nil => true
  | node l r _ p => pr p && allTree pr l && allTree pr r

/-- Search-tree shape invariant compatible with duplicate keys: no
left-descendant's key is greater than the node's key, and no
right-descendant's key is less than it. -/
def weakBST (key : π → κ) (cmp : κ → κ → Bool) : AVLTree π → Bool
  | nil => true
  | node l r _ p =>
    allTree (fun q => !cmp (key p) (key q)) l &&
      allTree (fun q => !cmp (key q) (key p)) r &&
      weakBST key cmp l && weakBST key cmp r

end AVLTree

/-- `Comp` is required to be a strict weak ordering: irreflexive,
transitive, with transitive incomparability (stated as transitivity of
the induced `≤`, `a ≤ b ↔ cmp b a = false`). -/
structure IsSWO {κ : Type} (cmp : κ → κ → Bool) : Prop where
  irrefl : ∀ a, cmp a a = false
  trans : ∀ a b c, cmp a b = true → cmp b c = true → cmp a c = true
  le_trans : ∀ a b c, cmp b a = false → cmp c b = false → cmp c a = false

namespace IsSWO

variable {κ : Type} {cmp : κ → κ → Bool}

theorem asymm (swo : IsSWO cmp) {a b : κ} (h : cmp a b = true) :
    cmp b a = false := by
  by_contra hc
  have := swo.trans a b a h (by revert hc; cases cmp b a <;> simp)
  rw [swo.irrefl] at this
  exact absurd this (by simp)

/-- `a ≤ b < c → a < c`. -/
theorem le_lt (swo : IsSWO cmp) {a b c : κ} (hab : cmp b a = false)
    (hbc : cmp b c = true) : cmp a c = true := by
  by_contra hc
  have hac : cmp a c = false := by revert hc; cases cmp a c <;> simp
  have := swo.le_trans c a b hac hab
  rw [hbc] at this
  exact absurd this (by simp)

/-- `a < b ≤ c → a < c`. -/
theorem lt_le (swo : IsSWO cmp) {a b c : κ} (hab : cmp a b = true)
    (hbc : cmp c b = false) : cmp a c = true := by
  by_contra hc
  have hac : cmp a c = false := by revert hc; cases cmp a c <;> simp
  have := swo.le_trans b c a hbc hac
  rw [hab] at this
  exact absurd this (by simp)

end IsSWO

/-! ## The pool allocator (`AVLPoolAllocator<T, size_type>`)

A pool cell (`union Elem`) holds either the index of the next free slot
(`size_type ptr`) or an occupied node (`T val`); the active member is
tracked structurally by the free list.  `maxCap` stands for
`std::numeric_limits<size_type>::max()`, which is both the maximal index
value and `max_capacity()`. -/

/-- `union Elem { size_type ptr; T val; }`. -/
inductive PoolCell (ν : Type) where
  | ptr (next : Nat)
  | val (v : ν)
  deriving DecidableEq, Repr

/-- The allocator state: backing array (as a function — slots at or past
`capacity` are unconstrained junk), its capacity, and the free-list head
(`head = capacity` means the free list is empty). -/
structure PoolState (ν : Type) where
  data : Nat → PoolCell ν
  capacity : Nat
  head : Nat

/-- The single failure kind: `THROW("The AVLPool is full")`. -/
inductive PoolErr where
  | allocatorExhausted
  deriving DecidableEq, Repr

namespace PoolState

variable {ν : Type}

/-- `ptr(i)`: read a cell's free-list pointer.  Reading it on an occupied
cell is undefined behaviour in the source; modelled as the junk value
`capacity + 1`. -/
def ptrAt (p : PoolState ν) (i : Nat) : Nat :=
  match p.data i with
  | .ptr n => n
  | .val _ => p.capacity + 1

/-- Point update of the backing array. -/
def updFn (f : Nat → PoolCell ν) (i : Nat) (c : PoolCell ν) :
    Nat → PoolCell ν :=
  fun j => if j = i then c else f j

/-- The free-list walk `for (i = head; i != capacity(); i = ptr(i))`,
with explicit fuel (`capacity + 1` steps always suffice on well-formed
pools, whose free slots are distinct indices below `capacity`). -/
def freeListAux (p : PoolState ν) : Nat → Nat → List Nat
  | 0, _ => []
  | fuel + 1, i =>
    if i = p.capacity then [] else i :: freeListAux p fuel (p.ptrAt i)

/-- The indices of the free slots, in free-list order. -/
def freeList (p : PoolState ν) : List Nat :=
  freeListAux p (p.capacity + 1) p.head

/-- The grown backing array shared by `reserve_for`: phase 1 marks every
old slot with `newCap` and threads the new region (`ptr(i) = i + 1`);
phase 2 walks the old free list, copying each free slot's next pointer;
phase 3 moves every cell still marked `newCap` (these are the occupied
ones, since `newCap > capacity` never occurs as a stored pointer) from the
old array.  Slot 0 (the dictionary's sentinel) is moved via its
`AVLNodeBase` alone in the source, which moves the same cell. -/
def grownData (p : PoolState ν) (newCap : Nat) : Nat → PoolCell ν :=
  let d0 : Nat → PoolCell ν := fun i =>
    if i < p.capacity then .ptr newCap else .ptr (i + 1)
  let d1 := p.freeList.foldl (fun d i => updFn d i (.ptr (p.ptrAt i))) d0
  fun i =>
    if i < p.capacity then
      match d1 i with
      | .ptr m => if m = newCap then p.data i else .ptr m
      | .val v => .val v
    else d1 i

/-- `reserve_for(n)`: no-op when `n < capacity()`; otherwise fails if the
capacity already equals `max_capacity()`, else grows to
`max(n, capacity < maxCap >> 1 ? capacity << 1 : maxCap)` preserving every
cell below the old capacity. -/
def reserveFor (maxCap : Nat) (p : PoolState ν) (n : Nat) :
    Except PoolErr (PoolState ν) :=
  if n < p.capacity then .ok p
  else if p.capacity = maxCap then .error .allocatorExhausted
  else
    let newCap := max n
      (if p.capacity < maxCap / 2 then p.capacity * 2 else maxCap)
    .ok { data := p.grownData newCap, capacity := newCap, head := p.head }

/-- `allocate()`: pops the free-list head; when the free list is empty
(`head == capacity`) first grows the arena — every old slot is occupied
then, so all cells move unchanged and the new region is threaded
`ptr(i) = i + 1` — and fails if the capacity is already maximal. -/
def allocate (maxCap : Nat) (p : PoolState ν) :
    Except PoolErr (PoolState ν × Nat) :=
  if p.head = p.capacity then
    if p.capacity = maxCap then .error .allocatorExhausted
    else
      let newCap := if p.capacity < maxCap / 2 then p.capacity * 2 else maxCap
      let d : Nat → PoolCell ν := fun i =>
        if i < p.capacity then p.data i else .ptr (i + 1)
      let p' : PoolState ν := ⟨d, newCap, p.head⟩
      .ok ({ p' with head := p'.ptrAt p'.head }, p'.head)
  else
    .ok ({ p with head := p.ptrAt p.head }, p.head)

/-- `deallocate(n)`: push slot `n` onto the free list (non-failing).
`destruct_and_deallocate` destructs the payload first but leaves the same
cell state behind. -/
def deallocate (p : PoolState ν) (n : Nat) : PoolState ν :=
  { p with data := updFn p.data n (.ptr p.head), head := n }

/-- The placement `::new (&pool[x]) Node{...}` performed by
`allocate_node` after `allocate()` returned the slot `x`. -/
def constructAt (p : PoolState ν) (i : Nat) (v : ν) : PoolState ν :=
  { p with data := updFn p.data i (.val v) }

/-- `deallocate_all()`: O(capacity) re-threading of the whole free list. -/
def deallocateAll (p : PoolState ν) : PoolState ν :=
  { p with
    data := fun i => if i < p.capacity then .ptr (i + 1) else p.data i,
    head := 0 }

/-- `AVLPoolAllocator(size_type reverve_size)`: a fresh pool of capacity
`max(1, n)` with slot `i` pointing at `i + 1` and `head = 0`. -/
def fresh (n : Nat) : PoolState ν :=
  ⟨fun i => .ptr (i + 1), max 1 n, 0⟩

/-- Slot `i` is occupied: a real slot not on the free list. -/
def occupied (p : PoolState ν) (i : Nat) : Prop :=
  i < p.capacity ∧ i ∉ p.freeList

/-- Free-list sanity relied upon by growth (`it works because
new_capacity > capacity()`): every free slot stores a next pointer no
larger than the capacity. -/
def freePtrsBounded (p : PoolState ν) : Prop :=
  ∀ i ∈ p.freeList, p.ptrAt i ≤ p.capacity

end PoolState


/-! ## Basic facts about the tree embedding -/

namespace AVLTree

variable {π : Type} {κ : Type}

@[simp] theorem height_nil : height (nil : AVLTree π) = 0 := rfl

@[simp] theorem height_node (l r : AVLTree π) (h : Nat) (p : π) :
    height (node l r h p) = h := rfl

@[simp] theorem kid_nil (d : Bool) : kid (nil : AVLTree π) d = nil := by
  cases d <;> rfl

@[simp] theorem kid_node_false (l r : AVLTree π) (h : Nat) (p : π) :
    kid (node l r h p) false = l := rfl

@[simp] theorem kid_node_true (l r : AVLTree π) (h : Nat) (p : π) :
    kid (node l r h p) true = r := rfl

@[simp] theorem setKid_node_false (l r c : AVLTree π) (h : Nat) (p : π) :
    setKid (node l r h p) false c = node c r h p := rfl

@[simp] theorem setKid_node_true (l r c : AVLTree π) (h : Nat) (p : π) :
    setKid (node l r h p) true c = node l c h p := rfl

@[simp] theorem seth_node (l r : AVLTree π) (h : Nat) (p : π) :
    seth (node l r h p) = node l r (1 + max (height l) (height r)) p := rfl

@[simp] theorem toList_nil : toList (nil : AVLTree π) = [] := rfl

@[simp] theorem toList_node (l r : AVLTree π) (h : Nat) (p : π) :
    toList (node l r h p) = toList l ++ p :: toList r := rfl

@[simp] theorem count_nil : count (nil : AVLTree π) = 0 := rfl

@[simp] theorem count_node (l r : AVLTree π) (h : Nat) (p : π) :
    count (node l r h p) = count l + count r + 1 := rfl

theorem count_eq_length_toList (t : AVLTree π) :
    count t = (toList t).length := by
  induction t with
  | nil => rfl
  | node l r h p ihl ihr => simp [ihl, ihr]; omega

theorem isNil_iff {t : AVLTree π} : isNil t = true ↔ t = nil := by
  cases t <;> simp [isNil]

theorem ne_nil_of_height_pos {t : AVLTree π} (h : 0 < height t) : t ≠ nil := by
  cases t <;> simp [height] at *

theorem cdiv_two_eq_zero {a : Int} (h1 : -1 ≤ a) (h2 : a ≤ 1) :
    cdiv a 2 = 0 := by
  unfold cdiv; split <;> omega

theorem cdiv_two_eq_one {a : Int} (h1 : 2 ≤ a) (h2 : a ≤ 3) :
    cdiv a 2 = 1 := by
  unfold cdiv; split <;> omega

theorem cdiv_two_eq_neg_one {a : Int} (h1 : -3 ≤ a) (h2 : a ≤ -2) :
    cdiv a 2 = -1 := by
  unfold cdiv; split <;> omega

/-- Balance factor 0 (`|h(l) - h(r)| ≤ 1`): `rebalance_and_seth` only
recomputes the height. -/
theorem rebalance_eq_seth (l r : AVLTree π) (h : Nat) (p : π)
    (hb : cdiv ((height l : Int) - height r) 2 = 0) :
    rebalance_and_seth (node l r h p) =
      node l r (1 + max (height l) (height r)) p := by
  simp only [rebalance_and_seth, kid_node_false, kid_node_true, hb]
  norm_num

/-- Left-heavy (`b = 1`), heavy child not right-leaning: single right
rotation. -/
theorem rebalance_eq_rotR (ll lr : AVLTree π) (lh : Nat) (lp : π)
    (r : AVLTree π) (h : Nat) (p : π)
    (hb : cdiv ((lh : Int) - height r) 2 = 1)
    (hin : ¬((height lr : Int) - height ll = 1)) :
    rebalance_and_seth (node (node ll lr lh lp) r h p) =
      node ll (node lr r (1 + max (height lr) (height r)) p)
        (1 + max (height ll) (1 + max (height lr) (height r))) lp := by
  simp only [rebalance_and_seth, kid_node_false, kid_node_true, height_node,
    hb]
  norm_num [hin, rotate_and_seth, rotate]

/-- Left-heavy (`b = 1`), heavy child right-leaning by one: double
rotation. -/
theorem rebalance_eq_dblR (ll c1 c2 : AVLTree π) (ch lh : Nat)
    (cp lp : π) (r : AVLTree π) (h : Nat) (p : π)
    (hb : cdiv ((lh : Int) - height r) 2 = 1)
    (hin : (ch : Int) - height ll = 1) :
    rebalance_and_seth (node (node ll (node c1 c2 ch cp) lh lp) r h p) =
      node (node ll c1 (1 + max (height ll) (height c1)) lp)
        (node c2 r (1 + max (height c2) (height r)) p)
        (1 + max (1 + max (height ll) (height c1))
          (1 + max (height c2) (height r))) cp := by
  simp only [rebalance_and_seth, kid_node_false, kid_node_true, height_node,
    hb]
  norm_num [hin]

/-- Right-heavy (`b = -1`), heavy child not left-leaning: single left
rotation. -/
theorem rebalance_eq_rotL (l : AVLTree π) (rl rr : AVLTree π) (rh : Nat)
    (rp : π) (h : Nat) (p : π)
    (hb : cdiv ((height l : Int) - rh) 2 = -1)
    (hin : ¬((height rr : Int) - height rl = -1)) :
    rebalance_and_seth (node l (node rl rr rh rp) h p) =
      node (node l rl (1 + max (height l) (height rl)) p) rr
        (1 + max (1 + max (height l) (height rl)) (height rr)) rp := by
  simp only [rebalance_and_seth, kid_node_false, kid_node_true, height_node,
    hb]
  norm_num [hin, rotate_and_seth, rotate]

/-- Right-heavy (`b = -1`), heavy child left-leaning by one: double
rotation. -/
theorem rebalance_eq_dblL (l c1 c2 : AVLTree π) (ch rh : Nat)
    (cp rp : π) (rr : AVLTree π) (h : Nat) (p : π)
    (hb : cdiv ((height l : Int) - rh) 2 = -1)
    (hin : (height rr : Int) - ch = -1) :
    rebalance_and_seth (node l (node (node c1 c2 ch cp) rr rh rp) h p) =
      node (node l c1 (1 + max (height l) (height c1)) p)
        (node c2 rr (1 + max (height c2) (height rr)) rp)
        (1 + max (1 + max (height l) (height c1))
          (1 + max (height c2) (height rr))) cp := by
  simp only [rebalance_and_seth, kid_node_false, kid_node_true, height_node,
    hb]
  norm_num [hin]


theorem hinv_node_iff {l r : AVLTree π} {h : Nat} {p : π} :
    hinv (node l r h p) = true ↔
      (h = 1 + max (height l) (height r) ∨ (l = nil ∧ r = nil ∧ h = 0)) ∧
        hinv l = true ∧ hinv r = true := by
  simp [hinv, isNil_iff, and_assoc]

theorem balanced_node_iff {l r : AVLTree π} {h : Nat} {p : π} :
    balanced (node l r h p) = true ↔
      height l ≤ height r + 1 ∧ height r ≤ height l + 1 ∧
        balanced l = true ∧ balanced r = true := by
  simp [balanced, and_assoc]

/-- Rebalancing never reorders the in-order traversal (for the
child-height differences that can arise, `|h(l) - h(r)| ≤ 3`). -/
theorem toList_rebalance (l r : AVLTree π) (h : Nat) (p : π)
    (hd : height l ≤ height r + 3) (hd' : height r ≤ height l + 3) :
    toList (rebalance_and_seth (node l r h p)) = toList l ++ p :: toList r := by
  rcases Nat.lt_or_ge (height l) (height r + 2) with hlt | hge
  · rcases Nat.lt_or_ge (height r) (height l + 2) with hlt' | hge'
    · rw [rebalance_eq_seth l r h p (cdiv_two_eq_zero (by omega) (by omega))]
      simp
    · -- right-heavy
      have hrpos : 0 < height r := by omega
      cases r with
      | nil => simp at hrpos
      | node rl rr rh rp =>
        have hb : cdiv ((height l : Int) - (height (node rl rr rh rp))) 2 = -1 := by
          apply cdiv_two_eq_neg_one <;> · simp only [height_node] at *; omega
        by_cases hin : (height rr : Int) - height rl = -1
        · have hrlpos : 0 < height rl := by
            have : (0:Int) ≤ height rr := by positivity
            omega
          cases rl with
          | nil => simp at hrlpos
          | node c1 c2 ch cp =>
            rw [rebalance_eq_dblL l c1 c2 ch rh cp rp rr h p (by simpa using hb)
              (by simpa using hin)]
            simp
        · rw [rebalance_eq_rotL l rl rr rh rp h p (by simpa using hb) hin]
          simp
  · -- left-heavy
    have hlpos : 0 < height l := by omega
    cases l with
    | nil => simp at hlpos
    | node ll lr lh lp =>
      have hb : cdiv ((height (node ll lr lh lp) : Int) - (height r)) 2 = 1 := by
        apply cdiv_two_eq_one <;> · simp only [height_node] at *; omega
      by_cases hin : (height lr : Int) - height ll = 1
      · have hlrpos : 0 < height lr := by
          have : (0:Int) ≤ height ll := by positivity
          omega
        cases lr with
        | nil => simp at hlrpos
        | node c1 c2 ch cp =>
          rw [rebalance_eq_dblR ll c1 c2 ch lh cp lp r h p (by simpa using hb)
            (by simpa using hin)]
          simp
      · rw [rebalance_eq_rotR ll lr lh lp r h p (by simpa using hb) hin]
        simp


/-- The effect of `rebalance_and_seth` on the invariants, for the
child-height differences that arise after one child was changed by an
insertion or an erase (`|h(l) - h(r)| ≤ 2`): both invariants are restored
and the resulting stored height is `max(h(l), h(r))` or one more. -/
theorem rebalance_spec (l r : AVLTree π) (h : Nat) (p : π)
    (il : hinv l = true) (ir : hinv r = true)
    (bl : balanced l = true) (br : balanced r = true)
    (hd : height l ≤ height r + 2) (hd' : height r ≤ height l + 2) :
    hinv (rebalance_and_seth (node l r h p)) = true ∧
    balanced (rebalance_and_seth (node l r h p)) = true ∧
    max (height l) (height r) ≤ height (rebalance_and_seth (node l r h p)) ∧
    height (rebalance_and_seth (node l r h p)) ≤
      1 + max (height l) (height r) ∧
    (height l ≤ height r + 1 → height r ≤ height l + 1 →
      height (rebalance_and_seth (node l r h p)) =
        1 + max (height l) (height r)) := by
  rcases Nat.lt_or_ge (height l) (height r + 2) with hlt | hge
  · rcases Nat.lt_or_ge (height r) (height l + 2) with hlt' | hge'
    · rw [rebalance_eq_seth l r h p (cdiv_two_eq_zero (by omega) (by omega))]
      refine ⟨?_, ?_, ?_, ?_, ?_⟩
      · exact hinv_node_iff.2 ⟨Or.inl rfl, il, ir⟩
      · exact balanced_node_iff.2 ⟨by omega, by omega, bl, br⟩
      · (try simp only [height_node]); omega
      · (try simp only [height_node]); omega
      · intro h1 h2; (try simp only [height_node] at h1 h2 ⊢) <;> omega
    · -- right-heavy: height r = height l + 2
      have hrpos : 0 < height r := by omega
      cases r with
      | nil => simp at hrpos
      | node rl rr rh rp =>
        simp only [height_node] at hd hd' hge' hrpos
        have hb : cdiv ((height l : Int) - (rh : Int)) 2 = -1 :=
          cdiv_two_eq_neg_one (by omega) (by omega)
        obtain ⟨hstrict, irl, irr⟩ := hinv_node_iff.1 ir
        obtain ⟨brl1, brl2, brl, brr⟩ := balanced_node_iff.1 br
        have hrh : rh = 1 + max (height rl) (height rr) := by
          rcases hstrict with hs | ⟨_, _, h0⟩
          · exact hs
          · omega
        by_cases hin : (height rr : Int) - height rl = -1
        · -- double rotation; the heavy child's left child is non-nil
          have hrlpos : 0 < height rl := by
            have : (0:Int) ≤ height rr := by positivity
            omega
          cases rl with
          | nil => simp at hrlpos
          | node c1 c2 ch cp =>
            simp only [height_node] at hrh hrlpos brl1 brl2 hin
            obtain ⟨hstrict2, ic1, ic2⟩ := hinv_node_iff.1 irl
            obtain ⟨bc1a, bc1b, bc1, bc2⟩ := balanced_node_iff.1 brl
            have hch : ch = 1 + max (height c1) (height c2) := by
              rcases hstrict2 with hs | ⟨_, _, h0⟩
              · exact hs
              · omega
            rw [rebalance_eq_dblL l c1 c2 ch rh cp rp rr h p hb hin]
            refine ⟨?_, ?_, ?_, ?_, ?_⟩
            · exact hinv_node_iff.2 ⟨Or.inl (by simp), 
                hinv_node_iff.2 ⟨Or.inl rfl, il, ic1⟩,
                hinv_node_iff.2 ⟨Or.inl rfl, ic2, irr⟩⟩
            · refine balanced_node_iff.2 ⟨?_, ?_,
                balanced_node_iff.2 ⟨?_, ?_, bl, bc1⟩,
                balanced_node_iff.2 ⟨?_, ?_, bc2, brr⟩⟩ <;>
                · (try simp only [height_node]); omega
            · (try simp only [height_node]); omega
            · (try simp only [height_node]); omega
            · intro h1 h2; (try simp only [height_node] at h1 h2 ⊢) <;> omega
        · rw [rebalance_eq_rotL l rl rr rh rp h p hb hin]
          refine ⟨?_, ?_, ?_, ?_, ?_⟩
          · exact hinv_node_iff.2 ⟨Or.inl (by simp),
              hinv_node_iff.2 ⟨Or.inl rfl, il, irl⟩, irr⟩
          · refine balanced_node_iff.2 ⟨?_, ?_,
              balanced_node_iff.2 ⟨?_, ?_, bl, brl⟩, brr⟩ <;>
              · (try simp only [height_node]); omega
          · (try simp only [height_node]); omega
          · (try simp only [height_node]); omega
          · intro h1 h2; (try simp only [height_node] at h1 h2 ⊢) <;> omega
  · -- left-heavy: height l = height r + 2
    have hlpos : 0 < height l := by omega
    cases l with
    | nil => simp at hlpos
    | node ll lr lh lp =>
      simp only [height_node] at hd hd' hge hlpos
      have hb : cdiv ((lh : Int) - (height r : Int)) 2 = 1 :=
        cdiv_two_eq_one (by omega) (by omega)
      obtain ⟨hstrict, ill, ilr⟩ := hinv_node_iff.1 il
      obtain ⟨bll1, bll2, bll, blr⟩ := balanced_node_iff.1 bl
      have hlh : lh = 1 + max (height ll) (height lr) := by
        rcases hstrict with hs | ⟨_, _, h0⟩
        · exact hs
        · omega
      by_cases hin : (height lr : Int) - height ll = 1
      · have hlrpos : 0 < height lr := by
          have : (0:Int) ≤ height ll := by positivity
          omega
        cases lr with
        | nil => simp at hlrpos
        | node c1 c2 ch cp =>
          simp only [height_node] at hlh hlrpos bll1 bll2 hin
          obtain ⟨hstrict2, ic1, ic2⟩ := hinv_node_iff.1 ilr
          obtain ⟨bc1a, bc1b, bc1, bc2⟩ := balanced_node_iff.1 blr
          have hch : ch = 1 + max (height c1) (height c2) := by
            rcases hstrict2 with hs | ⟨_, _, h0⟩
            · exact hs
            · omega
          rw [rebalance_eq_dblR ll c1 c2 ch lh cp lp r h p hb hin]
          refine ⟨?_, ?_, ?_, ?_, ?_⟩
          · exact hinv_node_iff.2 ⟨Or.inl (by simp),
              hinv_node_iff.2 ⟨Or.inl rfl, ill, ic1⟩,
              hinv_node_iff.2 ⟨Or.inl rfl, ic2, ir⟩⟩
          · refine balanced_node_iff.2 ⟨?_, ?_,
              balanced_node_iff.2 ⟨?_, ?_, bll, bc1⟩,
              balanced_node_iff.2 ⟨?_, ?_, bc2, br⟩⟩ <;>
              · (try simp only [height_node]); omega
          · (try simp only [height_node]); omega
          · (try simp only [height_node]); omega
          · intro h1 h2; (try simp only [height_node] at h1 h2 ⊢) <;> omega
      · rw [rebalance_eq_rotR ll lr lh lp r h p hb hin]
        refine ⟨?_, ?_, ?_, ?_, ?_⟩
        · exact hinv_node_iff.2 ⟨Or.inl (by simp), ill,
            hinv_node_iff.2 ⟨Or.inl rfl, ilr, ir⟩⟩
        · refine balanced_node_iff.2 ⟨?_, ?_, bll,
            balanced_node_iff.2 ⟨?_, ?_, blr, br⟩⟩ <;>
            · (try simp only [height_node]); omega
        · (try simp only [height_node]); omega
        · (try simp only [height_node]); omega
        · intro h1 h2; (try simp only [height_node] at h1 h2 ⊢) <;> omega


/-! ## Sortedness infrastructure -/

/-- The in-order key sequence is sorted for the comparator: no element is
less than an element preceding it. -/
def SortedKeys (key : π → κ) (cmp : κ → κ → Bool) (l : List π) : Prop :=
  l.Pairwise (fun a b => cmp (key b) (key a) = false)

theorem takeWhile_middle_all {α : Type} {pr : α → Bool} {A B : List α}
    {p : α} (hA : ∀ a ∈ A, pr a = true) (hp : pr p = true) :
    (A ++ p :: B).takeWhile pr = A ++ p :: B.takeWhile pr := by
  induction A with
  | nil => simp [List.takeWhile_cons, hp]
  | cons a A ih =>
    have ha := hA a (by simp)
    simp only [List.cons_append, List.takeWhile_cons, ha]
    simp [ih fun x hx => hA x (by simp [hx])]

theorem dropWhile_middle_all {α : Type} {pr : α → Bool} {A B : List α}
    {p : α} (hA : ∀ a ∈ A, pr a = true) (hp : pr p = true) :
    (A ++ p :: B).dropWhile pr = B.dropWhile pr := by
  induction A with
  | nil => simp [List.dropWhile_cons, hp]
  | cons a A ih =>
    have ha := hA a (by simp)
    simp only [List.cons_append, List.dropWhile_cons, ha]
    simp [ih fun x hx => hA x (by simp [hx])]

theorem takeWhile_middle_stop {α : Type} (pr : α → Bool) {A B : List α}
    {p : α} (hp : pr p = false) :
    (A ++ p :: B).takeWhile pr = A.takeWhile pr := by
  induction A with
  | nil => simp [List.takeWhile_cons, hp]
  | cons a A ih =>
    by_cases ha : pr a = true
    · simp [List.takeWhile_cons, ha, ih]
    · simp only [Bool.not_eq_true] at ha
      simp [List.takeWhile_cons, ha]

theorem dropWhile_middle_stop {α : Type} (pr : α → Bool) {A B : List α}
    {p : α} (hp : pr p = false) :
    (A ++ p :: B).dropWhile pr = A.dropWhile pr ++ p :: B := by
  induction A with
  | nil => simp [List.dropWhile_cons, hp]
  | cons a A ih =>
    by_cases ha : pr a = true
    · simp [List.dropWhile_cons, ha, ih]
    · simp only [Bool.not_eq_true] at ha
      simp [List.dropWhile_cons, ha]

theorem sortedKeys_nil {key : π → κ} {cmp : κ → κ → Bool} :
    SortedKeys key cmp ([] : List π) := List.Pairwise.nil

/-- Decomposition of sortedness at one node of the tree. -/
theorem sortedKeys_append_iff {key : π → κ} {cmp : κ → κ → Bool}
    {A B : List π} {p : π} :
    SortedKeys key cmp (A ++ p :: B) ↔
      SortedKeys key cmp A ∧ SortedKeys key cmp B ∧
        (∀ a ∈ A, cmp (key p) (key a) = false) ∧
        (∀ b ∈ B, cmp (key b) (key p) = false) ∧
        (∀ a ∈ A, ∀ b ∈ B, cmp (key b) (key a) = false) := by
  unfold SortedKeys
  rw [List.pairwise_append]
  simp only [List.pairwise_cons, List.mem_cons]
  constructor
  · rintro ⟨pA, ⟨hpB, pB⟩, cross⟩
    exact ⟨pA, pB, fun a ha => cross a ha p (Or.inl rfl), hpB,
      fun a ha b hb => cross a ha b (Or.inr hb)⟩
  · rintro ⟨pA, pB, hAp, hpB, cross⟩
    refine ⟨pA, ⟨hpB, pB⟩, ?_⟩
    rintro a ha b (rfl | hb)
    · exact hAp a ha
    · exact cross a ha b hb


/-- Unconditional insertion of a freshly allocated node (`h = 0`):
preserves both balance invariants, grows the stored height by at most
one, and splices the payload into the in-order sequence at its lower
bound — before every element that is not less than it (equivalent keys
included: `dir = compare(x, inserted)` sends duplicates left). -/
theorem insert_spec {key : π → κ} {cmp : κ → κ → Bool} (swo : IsSWO cmp)
    (t : AVLTree π) (q : π)
    (it : hinv t = true) (bt : balanced t = true)
    (hw : SortedKeys key cmp (toList t)) :
    hinv (insert key cmp t ⟨q, 0⟩) = true ∧
    balanced (insert key cmp t ⟨q, 0⟩) = true ∧
    height t ≤ height (insert key cmp t ⟨q, 0⟩) ∧
    height (insert key cmp t ⟨q, 0⟩) ≤ height t + 1 ∧
    toList (insert key cmp t ⟨q, 0⟩) =
      (toList t).takeWhile (fun e => cmp (key e) (key q)) ++
        q :: (toList t).dropWhile (fun e => cmp (key e) (key q)) := by
  induction t with
  | nil =>
    refine ⟨rfl, rfl, by simp [insert, DNode.toTree], by simp [insert, DNode.toTree], ?_⟩
    simp [insert, DNode.toTree]
  | node l r h p ihl ihr =>
    obtain ⟨hdisj, il, ir⟩ := hinv_node_iff.1 it
    obtain ⟨hb1, hb2, bl, br⟩ := balanced_node_iff.1 bt
    have harith : h = 1 + max (height l) (height r) ∨
        (height l = 0 ∧ height r = 0 ∧ h = 0) := by
      rcases hdisj with hs | ⟨hl0, hr0, h0⟩
      · exact Or.inl hs
      · subst hl0; subst hr0; exact Or.inr ⟨rfl, rfl, h0⟩
    rw [toList_node] at hw
    obtain ⟨pwA, pwB, hAp, hpB, cross⟩ := sortedKeys_append_iff.1 hw
    by_cases hc : cmp (key p) (key q) = true
    · -- descend right
      obtain ⟨ir', br', ih1, ih2, ihL⟩ := ihr ir br pwB
      have spec := rebalance_spec l (insert key cmp r ⟨q, 0⟩) h p il ir' bl br'
        (by omega) (by omega)
      obtain ⟨s1, s2, s3, s4, s5⟩ := spec
      have hins : insert key cmp (node l r h p) ⟨q, 0⟩ =
          rebalance_and_seth (node l (insert key cmp r ⟨q, 0⟩) h p) := by
        simp [insert, hc]
      rw [hins]
      refine ⟨s1, s2, ?_, ?_, ?_⟩
      · by_cases hfar : height (insert key cmp r ⟨q, 0⟩) = height l + 2
        · simp only [height_node]; rcases harith with h' | h' <;> omega
        · have := s5 (by omega) (by omega); simp only [height_node]
          rcases harith with h' | h' <;> omega
      · by_cases hfar : height (insert key cmp r ⟨q, 0⟩) = height l + 2
        · simp only [height_node]; rcases harith with h' | h' <;> omega
        · have := s5 (by omega) (by omega); simp only [height_node]
          rcases hdisj with h' | ⟨rfl, rfl, h0⟩
          · omega
          · have hz : height (insert key cmp nil ⟨q, 0⟩) = (0 : Nat) := rfl
            simp only [height_nil] at this ⊢
            omega
      · rw [toList_rebalance _ _ _ _ (by omega) (by omega), ihL, toList_node]
        have hAq : ∀ a ∈ toList l, cmp (key a) (key q) = true := by
          intro a ha
          exact swo.le_lt (hAp a ha) hc
        rw [takeWhile_middle_all hAq hc, dropWhile_middle_all hAq hc]
        simp
    · -- descend left (also the duplicate-key direction)
      have hc' : cmp (key p) (key q) = false := by
        revert hc; cases cmp (key p) (key q) <;> simp
      obtain ⟨il', bl', ih1, ih2, ihL⟩ := ihl il bl pwA
      have spec := rebalance_spec (insert key cmp l ⟨q, 0⟩) r h p il' ir bl' br
        (by omega) (by omega)
      obtain ⟨s1, s2, s3, s4, s5⟩ := spec
      have hins : insert key cmp (node l r h p) ⟨q, 0⟩ =
          rebalance_and_seth (node (insert key cmp l ⟨q, 0⟩) r h p) := by
        simp [insert, hc']
      rw [hins]
      refine ⟨s1, s2, ?_, ?_, ?_⟩
      · by_cases hfar : height (insert key cmp l ⟨q, 0⟩) = height r + 2
        · simp only [height_node]; rcases harith with h' | h' <;> omega
        · have := s5 (by omega) (by omega); simp only [height_node]
          rcases harith with h' | h' <;> omega
      · by_cases hfar : height (insert key cmp l ⟨q, 0⟩) = height r + 2
        · simp only [height_node]; rcases harith with h' | h' <;> omega
        · have := s5 (by omega) (by omega); simp only [height_node]
          rcases hdisj with h' | ⟨rfl, rfl, h0⟩
          · omega
          · have hz : height (insert key cmp nil ⟨q, 0⟩) = (0 : Nat) := rfl
            simp only [height_nil] at this ⊢
            omega
      · rw [toList_rebalance _ _ _ _ (by omega) (by omega), ihL, toList_node]
        rw [takeWhile_middle_stop (fun e => cmp (key e) (key q)) hc',
          dropWhile_middle_stop (fun e => cmp (key e) (key q)) hc']
        simp


theorem sortedKeys_sublist {key : π → κ} {cmp : κ → κ → Bool}
    {L L' : List π} (hs : L'.Sublist L) (hw : SortedKeys key cmp L) :
    SortedKeys key cmp L' :=
  List.Pairwise.sublist hs hw

theorem sortedKeys_dropWhile_bound {key : π → κ} {cmp : κ → κ → Bool}
    (swo : IsSWO cmp) {L : List π} (hw : SortedKeys key cmp L) (k : κ) :
    ∀ b ∈ L.dropWhile (fun e => cmp (key e) k), cmp (key b) k = false := by
  induction L with
  | nil => simp
  | cons x L ih =>
    rw [List.dropWhile_cons]
    by_cases hx : cmp (key x) k = true
    · simp only [hx]
      exact ih (List.Pairwise.of_cons hw)
    · simp only [Bool.not_eq_true] at hx
      simp only [hx]
      intro b hb
      rcases List.mem_cons.1 hb with rfl | hb'
      · exact hx
      · have hbx : cmp (key b) (key x) = false :=
          (List.pairwise_cons.1 hw).1 b hb'
        exact swo.le_trans k (key x) (key b) hx hbx

/-- An element inserted at its lower-bound position keeps the in-order
key sequence sorted. -/
theorem sortedKeys_insert_position {key : π → κ} {cmp : κ → κ → Bool}
    (swo : IsSWO cmp) {L : List π} (hw : SortedKeys key cmp L) (q : π) :
    SortedKeys key cmp
      (L.takeWhile (fun e => cmp (key e) (key q)) ++
        q :: L.dropWhile (fun e => cmp (key e) (key q))) := by
  apply sortedKeys_append_iff.2
  have hsplit := List.takeWhile_append_dropWhile
    (p := fun e => cmp (key e) (key q)) (l := L)
  refine ⟨sortedKeys_sublist (List.takeWhile_sublist _) hw,
    sortedKeys_sublist (List.dropWhile_sublist _) hw, ?_, ?_, ?_⟩
  · intro a ha
    have hpred := List.mem_takeWhile_imp ha
    exact swo.asymm (by simpa using hpred)
  · exact sortedKeys_dropWhile_bound swo hw (key q)
  · intro a ha b hb
    have hw2 : List.Pairwise (fun a b => cmp (key b) (key a) = false)
        (L.takeWhile (fun e => cmp (key e) (key q)) ++
          L.dropWhile (fun e => cmp (key e) (key q))) := by
      rw [hsplit]; exact hw
    exact (List.pairwise_append.1 hw2).2.2 a ha b hb

/-- Sortedness is preserved by unconditional insertion. -/
theorem sortedKeys_insert {key : π → κ} {cmp : κ → κ → Bool}
    (swo : IsSWO cmp) (t : AVLTree π) (q : π)
    (it : hinv t = true) (bt : balanced t = true)
    (hw : SortedKeys key cmp (toList t)) :
    SortedKeys key cmp (toList (insert key cmp t ⟨q, 0⟩)) := by
  rw [(insert_spec swo t q it bt hw).2.2.2.2]
  exact sortedKeys_insert_position swo hw q

/-- When no element of the tree has a key equivalent to the new node's,
`insert_if_not_exists` walks exactly the path of `insert` and reports the
insertion. -/
theorem ife_eq_insert_of_not_mem {key : π → κ} {cmp : κ → κ → Bool}
    (t : AVLTree π) (q : π)
    (hno : ∀ e ∈ toList t,
      cmp (key e) (key q) = true ∨ cmp (key q) (key e) = true) :
    insert_if_not_exists key cmp t ⟨q, 0⟩ =
      (insert key cmp t ⟨q, 0⟩, none) := by
  induction t with
  | nil => rfl
  | node l r h p ihl ihr =>
    have hp := hno p (by simp)
    by_cases hc : cmp (key p) (key q) = true
    · have ihr' := ihr fun e he => hno e (by simp [he])
      simp [insert_if_not_exists, insert, hc, ihr']
    · simp only [Bool.not_eq_true] at hc
      have hq : cmp (key q) (key p) = true := by
        rcases hp with h1 | h1
        · rw [hc] at h1; cases h1
        · exact h1
      have ihl' := ihl fun e he => hno e (by simp [he])
      simp [insert_if_not_exists, insert, hc, hq, ihl']


/-- When an equivalent key is present, `insert_if_not_exists` finds it,
returns its payload, and hands every ancestor back unchanged (the
rebalancing pass on the search path is the identity on a well-formed
tree). -/
theorem ife_found_spec {key : π → κ} {cmp : κ → κ → Bool}
    (swo : IsSWO cmp) (t : AVLTree π) (q : π)
    (it : hinv t = true) (bt : balanced t = true)
    (hw : SortedKeys key cmp (toList t))
    (hyes : ∃ e ∈ toList t,
      cmp (key e) (key q) = false ∧ cmp (key q) (key e) = false) :
    ∃ p0, insert_if_not_exists key cmp t ⟨q, 0⟩ = (t, some p0) ∧
      p0 ∈ toList t ∧
      cmp (key p0) (key q) = false ∧ cmp (key q) (key p0) = false := by
  induction t with
  | nil => simp at hyes
  | node l r h p ihl ihr =>
    obtain ⟨hdisj, il, ir⟩ := hinv_node_iff.1 it
    obtain ⟨hb1, hb2, bl, br⟩ := balanced_node_iff.1 bt
    rw [toList_node] at hw
    obtain ⟨pwA, pwB, hAp, hpB, cross⟩ := sortedKeys_append_iff.1 hw
    obtain ⟨e, he, he1, he2⟩ := hyes
    by_cases hc : cmp (key p) (key q) = true
    · -- the equivalent element can only be in the right subtree
      have heB : e ∈ toList r := by
        rcases (by simpa using he : e ∈ toList l ∨ e = p ∨ e ∈ toList r) with
          hA | rfl | hB
        · exfalso
          have hlt : cmp (key p) (key e) = true := swo.lt_le hc he1
          rw [hAp e hA] at hlt; cases hlt
        · rw [he1] at hc; cases hc
        · exact hB
      have hstrict : h = 1 + max (height l) (height r) := by
        rcases hdisj with hs | ⟨_, hrnil, _⟩
        · exact hs
        · rw [hrnil] at heB; simp at heB
      obtain ⟨p0, hife, hp0mem, hp01, hp02⟩ :=
        ihr ir br pwB ⟨e, heB, he1, he2⟩
      have hreb : rebalance_and_seth (node l r h p) = node l r h p := by
        rw [rebalance_eq_seth l r h p (cdiv_two_eq_zero (by omega) (by omega)),
          ← hstrict]
      refine ⟨p0, ?_, by simp [hp0mem], hp01, hp02⟩
      simp only [insert_if_not_exists, hc, if_true, hife]
      simpa using hreb
    · have hc' : cmp (key p) (key q) = false := by
        revert hc; cases cmp (key p) (key q) <;> simp
      by_cases hq : cmp (key q) (key p) = true
      · -- the equivalent element can only be in the left subtree
        have heA : e ∈ toList l := by
          rcases (by simpa using he : e ∈ toList l ∨ e = p ∨ e ∈ toList r) with
            hA | rfl | hB
          · exact hA
          · rw [he2] at hq; cases hq
          · exfalso
            have hlt : cmp (key e) (key p) = true := swo.le_lt he2 hq
            rw [hpB e hB] at hlt; cases hlt
        have hstrict : h = 1 + max (height l) (height r) := by
          rcases hdisj with hs | ⟨hlnil, _, _⟩
          · exact hs
          · rw [hlnil] at heA; simp at heA
        obtain ⟨p0, hife, hp0mem, hp01, hp02⟩ :=
          ihl il bl pwA ⟨e, heA, he1, he2⟩
        have hreb : rebalance_and_seth (node l r h p) = node l r h p := by
          rw [rebalance_eq_seth l r h p
            (cdiv_two_eq_zero (by omega) (by omega)), ← hstrict]
        refine ⟨p0, ?_, by simp [hp0mem], hp01, hp02⟩
        simp only [insert_if_not_exists, hc', hq, if_true, Bool.false_eq_true,
          if_false, hife]
        simpa using hreb
      · have hq' : cmp (key q) (key p) = false := by
          revert hq; cases cmp (key q) (key p) <;> simp
        refine ⟨p, ?_, by simp, hc', hq'⟩
        simp [insert_if_not_exists, hc', hq']


/-- When no element's key is equivalent to `k`, `emplace_if_not_exists`
constructs `mk k` at the leaf and behaves exactly like the unconditional
insert of that payload. -/
theorem eine_eq_insert_of_not_mem {key : π → κ} {cmp : κ → κ → Bool}
    (mk : κ → π) (t : AVLTree π) (k : κ) (hk : key (mk k) = k)
    (hno : ∀ e ∈ toList t,
      cmp (key e) k = true ∨ cmp k (key e) = true) :
    emplace_if_not_exists key cmp mk t k =
      (insert key cmp t ⟨mk k, 0⟩, none) := by
  induction t with
  | nil => rfl
  | node l r h p ihl ihr =>
    have hp := hno p (by simp)
    by_cases hc : cmp (key p) k = true
    · have ihr' := ihr fun e he => hno e (by simp [he])
      simp [emplace_if_not_exists, insert, hc, hk, ihr']
    · simp only [Bool.not_eq_true] at hc
      have hq : cmp k (key p) = true := by
        rcases hp with h1 | h1
        · rw [hc] at h1; cases h1
        · exact h1
      have ihl' := ihl fun e he => hno e (by simp [he])
      simp [emplace_if_not_exists, insert, hc, hq, hk, ihl']

/-- When an equivalent key is present, `emplace_if_not_exists` constructs
nothing, returns the found payload, and leaves the tree unchanged. -/
theorem eine_found_spec {key : π → κ} {cmp : κ → κ → Bool}
    (swo : IsSWO cmp) (mk : κ → π) (t : AVLTree π) (k : κ)
    (it : hinv t = true) (bt : balanced t = true)
    (hw : SortedKeys key cmp (toList t))
    (hyes : ∃ e ∈ toList t, cmp (key e) k = false ∧ cmp k (key e) = false) :
    ∃ p0, emplace_if_not_exists key cmp mk t k = (t, some p0) ∧
      p0 ∈ toList t ∧ cmp (key p0) k = false ∧ cmp k (key p0) = false := by
  induction t with
  | nil => simp at hyes
  | node l r h p ihl ihr =>
    obtain ⟨hdisj, il, ir⟩ := hinv_node_iff.1 it
    obtain ⟨hb1, hb2, bl, br⟩ := balanced_node_iff.1 bt
    rw [toList_node] at hw
    obtain ⟨pwA, pwB, hAp, hpB, cross⟩ := sortedKeys_append_iff.1 hw
    obtain ⟨e, he, he1, he2⟩ := hyes
    by_cases hc : cmp (key p) k = true
    · have heB : e ∈ toList r := by
        rcases (by simpa using he : e ∈ toList l ∨ e = p ∨ e ∈ toList r) with
          hA | rfl | hB
        · exfalso
          have hlt : cmp (key p) (key e) = true := swo.lt_le hc he1
          rw [hAp e hA] at hlt; cases hlt
        · rw [he1] at hc; cases hc
        · exact hB
      have hstrict : h = 1 + max (height l) (height r) := by
        rcases hdisj with hs | ⟨_, hrnil, _⟩
        · exact hs
        · rw [hrnil] at heB; simp at heB
      obtain ⟨p0, heine, hp0mem, hp01, hp02⟩ :=
        ihr ir br pwB ⟨e, heB, he1, he2⟩
      have hreb : rebalance_and_seth (node l r h p) = node l r h p := by
        rw [rebalance_eq_seth l r h p (cdiv_two_eq_zero (by omega) (by omega)),
          ← hstrict]
      refine ⟨p0, ?_, by simp [hp0mem], hp01, hp02⟩
      simp only [emplace_if_not_exists, hc, if_true, heine]
      simpa using hreb
    · have hc' : cmp (key p) k = false := by
        revert hc; cases cmp (key p) k <;> simp
      by_cases hq : cmp k (key p) = true
      · have heA : e ∈ toList l := by
          rcases (by simpa using he : e ∈ toList l ∨ e = p ∨ e ∈ toList r) with
            hA | rfl | hB
          · exact hA
          · rw [he2] at hq; cases hq
          · exfalso
            have hlt : cmp (key e) (key p) = true := swo.le_lt he2 hq
            rw [hpB e hB] at hlt; cases hlt
        have hstrict : h = 1 + max (height l) (height r) := by
          rcases hdisj with hs | ⟨hlnil, _, _⟩
          · exact hs
          · rw [hlnil] at heA; simp at heA
        obtain ⟨p0, heine, hp0mem, hp01, hp02⟩ :=
          ihl il bl pwA ⟨e, heA, he1, he2⟩
        have hreb : rebalance_and_seth (node l r h p) = node l r h p := by
          rw [rebalance_eq_seth l r h p
            (cdiv_two_eq_zero (by omega) (by omega)), ← hstrict]
        refine ⟨p0, ?_, by simp [hp0mem], hp01, hp02⟩
        simp only [emplace_if_not_exists, hc', hq, if_true,
          Bool.false_eq_true, if_false, heine]
        simpa using hreb
      · have hq' : cmp k (key p) = false := by
          revert hq; cases cmp k (key p) <;> simp
        refine ⟨p, ?_, by simp, hc', hq'⟩
        simp [emplace_if_not_exists, hc', hq']

/-- When no equivalent key exists, `insert_or_replace` inserts and
reports `true`, behaving exactly like the unconditional insert (for a
candidate node with any stored height). -/
theorem ior_eq_insert_of_not_mem {key : π → κ} {cmp : κ → κ → Bool}
    (t : AVLTree π) (d : DNode π)
    (hno : ∀ e ∈ toList t,
      cmp (key e) (key d.p) = true ∨ cmp (key d.p) (key e) = true) :
    insert_or_replace key cmp t d = (insert key cmp t d, true) := by
  induction t with
  | nil => rfl
  | node l r h p ihl ihr =>
    have hp := hno p (by simp)
    by_cases hc : cmp (key p) (key d.p) = true
    · have ihr' := ihr fun e he => hno e (by simp [he])
      simp [insert_or_replace, insert, hc, ihr']
    · simp only [Bool.not_eq_true] at hc
      have hq : cmp (key d.p) (key p) = true := by
        rcases hp with h1 | h1
        · rw [hc] at h1; cases h1
        · exact h1
      have ihl' := ihl fun e he => hno e (by simp [he])
      simp [insert_or_replace, insert, hc, hq, ihl']

/-- When an equivalent key is present, `insert_or_replace` splices the
new node into the old node's tree position (taking over its children and
height), destroys the old node, reports `false`, and changes nothing
else: same shape, same heights, the old payload replaced in place. -/
theorem ior_found_spec {key : π → κ} {cmp : κ → κ → Bool}
    (swo : IsSWO cmp) (t : AVLTree π) (d : DNode π)
    (it : hinv t = true) (bt : balanced t = true)
    (hw : SortedKeys key cmp (toList t))
    (hyes : ∃ e ∈ toList t,
      cmp (key e) (key d.p) = false ∧ cmp (key d.p) (key e) = false) :
    ∃ t' A B e, insert_or_replace key cmp t d = (t', false) ∧
      toList t = A ++ e :: B ∧
      cmp (key e) (key d.p) = false ∧ cmp (key d.p) (key e) = false ∧
      toList t' = A ++ d.p :: B ∧
      hinv t' = true ∧ balanced t' = true ∧ height t' = height t := by
  induction t with
  | nil => simp at hyes
  | node l r h p ihl ihr =>
    obtain ⟨hdisj, il, ir⟩ := hinv_node_iff.1 it
    obtain ⟨hb1, hb2, bl, br⟩ := balanced_node_iff.1 bt
    rw [toList_node] at hw
    obtain ⟨pwA, pwB, hAp, hpB, cross⟩ := sortedKeys_append_iff.1 hw
    obtain ⟨e, he, he1, he2⟩ := hyes
    by_cases hc : cmp (key p) (key d.p) = true
    · have heB : e ∈ toList r := by
        rcases (by simpa using he : e ∈ toList l ∨ e = p ∨ e ∈ toList r) with
          hA | rfl | hB
        · exfalso
          have hlt : cmp (key p) (key e) = true := swo.lt_le hc he1
          rw [hAp e hA] at hlt; cases hlt
        · rw [he1] at hc; cases hc
        · exact hB
      have hstrict : h = 1 + max (height l) (height r) := by
        rcases hdisj with hs | ⟨_, hrnil, _⟩
        · exact hs
        · rw [hrnil] at heB; simp at heB
      obtain ⟨t'', A'', B'', e'', hior, hsplit, he1'', he2'', hL'', hi'',
        hb'', hh''⟩ := ihr ir br pwB ⟨e, heB, he1, he2⟩
      have hreb : rebalance_and_seth (node l t'' h p) = node l t'' h p := by
        rw [rebalance_eq_seth l t'' h p
          (cdiv_two_eq_zero (by omega) (by omega)), hh'', ← hstrict]
      refine ⟨node l t'' h p, toList l ++ p :: A'', B'', e'', ?_,
        by simp [hsplit], he1'', he2'', by simp [hL''], ?_, ?_, by simp⟩
      · simp only [insert_or_replace, hc, if_true, hior]
        simpa using hreb
      · exact hinv_node_iff.2 ⟨Or.inl (by rw [hh'']; exact hstrict), il, hi''⟩
      · exact balanced_node_iff.2 ⟨by omega, by omega, bl, hb''⟩
    · have hc' : cmp (key p) (key d.p) = false := by
        revert hc; cases cmp (key p) (key d.p) <;> simp
      by_cases hq : cmp (key d.p) (key p) = true
      · have heA : e ∈ toList l := by
          rcases (by simpa using he : e ∈ toList l ∨ e = p ∨ e ∈ toList r) with
            hA | rfl | hB
          · exact hA
          · rw [he2] at hq; cases hq
          · exfalso
            have hlt : cmp (key e) (key p) = true := swo.le_lt he2 hq
            rw [hpB e hB] at hlt; cases hlt
        have hstrict : h = 1 + max (height l) (height r) := by
          rcases hdisj with hs | ⟨hlnil, _, _⟩
          · exact hs
          · rw [hlnil] at heA; simp at heA
        obtain ⟨t'', A'', B'', e'', hior, hsplit, he1'', he2'', hL'', hi'',
          hb'', hh''⟩ := ihl il bl pwA ⟨e, heA, he1, he2⟩
        have hreb : rebalance_and_seth (node t'' r h p) = node t'' r h p := by
          rw [rebalance_eq_seth t'' r h p
            (cdiv_two_eq_zero (by omega) (by omega)), hh'', ← hstrict]
        refine ⟨node t'' r h p, A'', B'' ++ p :: toList r, e'', ?_,
          by simp [hsplit], he1'', he2'', by simp [hL''], ?_, ?_, by simp⟩
        · simp only [insert_or_replace, hc', hq, if_true, Bool.false_eq_true,
            if_false, hior]
          simpa using hreb
        · exact hinv_node_iff.2 ⟨Or.inl (by rw [hh'']; exact hstrict),
            hi'', ir⟩
        · exact balanced_node_iff.2 ⟨by omega, by omega, hb'', br⟩
      · have hq' : cmp (key d.p) (key p) = false := by
          revert hq; cases cmp (key d.p) (key p) <;> simp
        refine ⟨node l r h d.p, toList l, toList r, p,
          by simp [insert_or_replace, hc', hq'], by simp, hc', hq', by simp,
          hinv_node_iff.2 ⟨by simpa using hdisj, il, ir⟩,
          balanced_node_iff.2 ⟨by omega, by omega, bl, br⟩, by simp⟩


/-- `pull_out_rightmost` on a non-nil subtree: detaches exactly the last
element of the in-order sequence (keeping its stored height in the
returned node), preserves both invariants, and lowers the stored height
by at most one. -/
theorem pull_out_rightmost_spec (t : AVLTree π)
    (ht : t ≠ nil) (it : hinv t = true) (bt : balanced t = true) :
    ∃ t' dd, pull_out_rightmost t = (t', some dd) ∧
      toList t = toList t' ++ [dd.p] ∧
      hinv t' = true ∧ balanced t' = true ∧
      height t ≤ height t' + 1 ∧ height t' ≤ height t := by
  induction t with
  | nil => exact absurd rfl ht
  | node l r h p ihl ihr =>
    obtain ⟨hdisj, il, ir⟩ := hinv_node_iff.1 it
    obtain ⟨hb1, hb2, bl, br⟩ := balanced_node_iff.1 bt
    cases r with
    | nil =>
      have harith : h = 1 + max (height l) 0 ∨ (height l = 0 ∧ h = 0) := by
        rcases hdisj with hs | ⟨rfl, _, h0⟩
        · exact Or.inl (by simpa using hs)
        · exact Or.inr ⟨rfl, h0⟩
      exact ⟨l, ⟨p, h⟩, rfl, by simp, il, bl, by simp; omega, by simp; omega⟩
    | node rl rr rh rp =>
      have hstrict : h = 1 + max (height l) (height (node rl rr rh rp)) := by
        rcases hdisj with hs | ⟨_, hrnil, _⟩
        · exact hs
        · cases hrnil
      obtain ⟨r', dd, hpor, hLr, ir', br', hh1, hh2⟩ :=
        ihr (by simp) ir br
      have spec := rebalance_spec l r' h p il ir' bl br'
        (by simp only [height_node] at *; omega)
        (by simp only [height_node] at *; omega)
      obtain ⟨s1, s2, s3, s4, s5⟩ := spec
      refine ⟨rebalance_and_seth (node l r' h p), dd, ?_, ?_, s1, s2, ?_, ?_⟩
      · simp only [pull_out_rightmost, hpor]
      · rw [toList_rebalance _ _ _ _
          (by simp only [height_node] at *; omega)
          (by simp only [height_node] at *; omega)]
        simp [hLr]
      · simp only [height_node] at *
        by_cases hfar : height l = height r' + 2
        · omega
        · have := s5 (by omega) (by omega); omega
      · simp only [height_node] at *
        by_cases hfar : height l = height r' + 2
        · omega
        · have := s5 (by omega) (by omega); omega


/-- `erase_impl` on a key with no equivalent in the tree: reports
"not found" (`to_ret_val()`), keeps the in-order sequence intact, keeps
both invariants, and can only grow the stored height (the search path's
heights are recomputed, which may promote fresh leaves from height 0 to
height 1 and rebalance above them). -/
theorem erase_impl_not_mem {key : π → κ} {cmp : κ → κ → Bool}
    (t : AVLTree π) (k : κ)
    (hno : ∀ e ∈ toList t, cmp (key e) k = true ∨ cmp k (key e) = true)
    (it : hinv t = true) (bt : balanced t = true) :
    (erase_impl key cmp t k).2 = none ∧
    toList (erase_impl key cmp t k).1 = toList t ∧
    hinv (erase_impl key cmp t k).1 = true ∧
    balanced (erase_impl key cmp t k).1 = true ∧
    height t ≤ height (erase_impl key cmp t k).1 ∧
    height (erase_impl key cmp t k).1 ≤ height t + 1 := by
  induction t with
  | nil => exact ⟨rfl, rfl, rfl, rfl, Nat.le_refl _, Nat.le_succ _⟩
  | node l r h p ihl ihr =>
    obtain ⟨hdisj, il, ir⟩ := hinv_node_iff.1 it
    obtain ⟨hb1, hb2, bl, br⟩ := balanced_node_iff.1 bt
    have hp := hno p (by simp)
    by_cases hc : cmp (key p) k = true
    · obtain ⟨n2, nL, ni, nb, nh1, nh2⟩ :=
        ihr (fun e he => hno e (by simp [he])) ir br
      have heq : erase_impl key cmp (node l r h p) k =
          (rebalance_and_seth (node l (erase_impl key cmp r k).1 h p),
            (erase_impl key cmp r k).2) := by
        simp [erase_impl, hc]
      obtain ⟨s1, s2, s3, s4, s5⟩ :=
        rebalance_spec l (erase_impl key cmp r k).1 h p il ni bl nb
          (by omega) (by omega)
      rw [heq]
      refine ⟨n2, ?_, s1, s2, ?_, ?_⟩
      · rw [toList_rebalance _ _ _ _ (by omega) (by omega)]
        simp [nL]
      · simp only [height_node]
        by_cases hfar : height (erase_impl key cmp r k).1 = height l + 2
        · rcases hdisj with h' | ⟨rfl, rfl, h'⟩
          · omega
          · have hz : height (erase_impl key cmp (nil : AVLTree π) k).1 = 0 :=
              rfl
            simp only [height_nil] at *
            omega
        · have := s5 (by omega) (by omega)
          rcases hdisj with h' | ⟨rfl, rfl, h'⟩
          · omega
          · have hz : height (erase_impl key cmp (nil : AVLTree π) k).1 = 0 :=
              rfl
            simp only [height_nil] at *
            omega
      · simp only [height_node]
        by_cases hfar : height (erase_impl key cmp r k).1 = height l + 2
        · rcases hdisj with h' | ⟨rfl, rfl, h'⟩
          · omega
          · have hz : height (erase_impl key cmp (nil : AVLTree π) k).1 = 0 :=
              rfl
            simp only [height_nil] at *
            omega
        · have := s5 (by omega) (by omega)
          rcases hdisj with h' | ⟨rfl, rfl, h'⟩
          · omega
          · have hz : height (erase_impl key cmp (nil : AVLTree π) k).1 = 0 :=
              rfl
            simp only [height_nil] at *
            omega
    · have hc' : cmp (key p) k = false := by
        revert hc; cases cmp (key p) k <;> simp
      have hq : cmp k (key p) = true := by
        rcases hp with h1 | h1
        · rw [hc'] at h1; cases h1
        · exact h1
      obtain ⟨n2, nL, ni, nb, nh1, nh2⟩ :=
        ihl (fun e he => hno e (by simp [he])) il bl
      have heq : erase_impl key cmp (node l r h p) k =
          (rebalance_and_seth (node (erase_impl key cmp l k).1 r h p),
            (erase_impl key cmp l k).2) := by
        simp [erase_impl, hc', hq]
      obtain ⟨s1, s2, s3, s4, s5⟩ :=
        rebalance_spec (erase_impl key cmp l k).1 r h p ni ir nb br
          (by omega) (by omega)
      rw [heq]
      refine ⟨n2, ?_, s1, s2, ?_, ?_⟩
      · rw [toList_rebalance _ _ _ _ (by omega) (by omega)]
        simp [nL]
      · simp only [height_node]
        by_cases hfar : height (erase_impl key cmp l k).1 = height r + 2
        · rcases hdisj with h' | ⟨rfl, rfl, h'⟩
          · omega
          · have hz : height (erase_impl key cmp (nil : AVLTree π) k).1 = 0 :=
              rfl
            simp only [height_nil] at *
            omega
        · have := s5 (by omega) (by omega)
          rcases hdisj with h' | ⟨rfl, rfl, h'⟩
          · omega
          · have hz : height (erase_impl key cmp (nil : AVLTree π) k).1 = 0 :=
              rfl
            simp only [height_nil] at *
            omega
      · simp only [height_node]
        by_cases hfar : height (erase_impl key cmp l k).1 = height r + 2
        · rcases hdisj with h' | ⟨rfl, rfl, h'⟩
          · omega
          · have hz : height (erase_impl key cmp (nil : AVLTree π) k).1 = 0 :=
              rfl
            simp only [height_nil] at *
            omega
        · have := s5 (by omega) (by omega)
          rcases hdisj with h' | ⟨rfl, rfl, h'⟩
          · omega
          · have hz : height (erase_impl key cmp (nil : AVLTree π) k).1 = 0 :=
              rfl
            simp only [height_nil] at *
            omega


/-- `erase_impl` on a key with an equivalent element present: exactly one
equivalent element is excised from the in-order sequence (`to_ret_val(x)`
receives it), both invariants are preserved, and the stored height drops
by at most one. -/
theorem erase_impl_found {key : π → κ} {cmp : κ → κ → Bool}
    (swo : IsSWO cmp) (t : AVLTree π) (k : κ)
    (it : hinv t = true) (bt : balanced t = true)
    (hw : SortedKeys key cmp (toList t))
    (hyes : ∃ e ∈ toList t, cmp (key e) k = false ∧ cmp k (key e) = false) :
    ∃ t' A B e h0, erase_impl key cmp t k = (t', some (e, h0)) ∧
      toList t = A ++ e :: B ∧
      cmp (key e) k = false ∧ cmp k (key e) = false ∧
      toList t' = A ++ B ∧
      hinv t' = true ∧ balanced t' = true ∧
      height t ≤ height t' + 1 ∧ height t' ≤ height t := by
  induction t with
  | nil => simp at hyes
  | node l r h p ihl ihr =>
    obtain ⟨hdisj, il, ir⟩ := hinv_node_iff.1 it
    obtain ⟨hb1, hb2, bl, br⟩ := balanced_node_iff.1 bt
    rw [toList_node] at hw
    obtain ⟨pwA, pwB, hAp, hpB, cross⟩ := sortedKeys_append_iff.1 hw
    obtain ⟨e, he, he1, he2⟩ := hyes
    by_cases hc : cmp (key p) k = true
    · -- the equivalent element lies in the right subtree
      have heB : e ∈ toList r := by
        rcases (by simpa using he : e ∈ toList l ∨ e = p ∨ e ∈ toList r) with
          hA | rfl | hB
        · exfalso
          have hlt : cmp (key p) (key e) = true := swo.lt_le hc he1
          rw [hAp e hA] at hlt; cases hlt
        · rw [he1] at hc; cases hc
        · exact hB
      have hstrict : h = 1 + max (height l) (height r) := by
        rcases hdisj with hs | ⟨_, hrnil, _⟩
        · exact hs
        · rw [hrnil] at heB; simp at heB
      obtain ⟨t'', A'', B'', e'', h0, heq'', hsplit'', he1'', he2'', hL'',
        hi'', hbal'', hh1'', hh2''⟩ := ihr ir br pwB ⟨e, heB, he1, he2⟩
      obtain ⟨s1, s2, s3, s4, s5⟩ := rebalance_spec l t'' h p il hi'' bl hbal''
        (by omega) (by omega)
      refine ⟨rebalance_and_seth (node l t'' h p), toList l ++ p :: A'', B'',
        e'', h0, ?_, by simp [hsplit''], he1'', he2'', ?_, s1, s2, ?_, ?_⟩
      · simp [erase_impl, hc, heq'']
      · rw [toList_rebalance _ _ _ _ (by omega) (by omega)]
        simp [hL'']
      · simp only [height_node]
        by_cases hfar : height l = height t'' + 2
        · omega
        · have := s5 (by omega) (by omega); omega
      · simp only [height_node]
        by_cases hfar : height l = height t'' + 2
        · omega
        · have := s5 (by omega) (by omega); omega
    · have hc' : cmp (key p) k = false := by
        revert hc; cases cmp (key p) k <;> simp
      by_cases hq : cmp k (key p) = true
      · -- the equivalent element lies in the left subtree
        have heA : e ∈ toList l := by
          rcases (by simpa using he : e ∈ toList l ∨ e = p ∨ e ∈ toList r) with
            hA | rfl | hB
          · exact hA
          · rw [he2] at hq; cases hq
          · exfalso
            have hlt : cmp (key e) (key p) = true := swo.le_lt he2 hq
            rw [hpB e hB] at hlt; cases hlt
        have hstrict : h = 1 + max (height l) (height r) := by
          rcases hdisj with hs | ⟨hlnil, _, _⟩
          · exact hs
          · rw [hlnil] at heA; simp at heA
        obtain ⟨t'', A'', B'', e'', h0, heq'', hsplit'', he1'', he2'', hL'',
          hi'', hbal'', hh1'', hh2''⟩ := ihl il bl pwA ⟨e, heA, he1, he2⟩
        obtain ⟨s1, s2, s3, s4, s5⟩ := rebalance_spec t'' r h p hi'' ir hbal''
          br (by omega) (by omega)
        refine ⟨rebalance_and_seth (node t'' r h p), A'', B'' ++ p :: toList r,
          e'', h0, ?_, by simp [hsplit''], he1'', he2'', ?_, s1, s2, ?_, ?_⟩
        · simp [erase_impl, hc', hq, heq'']
        · rw [toList_rebalance _ _ _ _ (by omega) (by omega)]
          simp [hL'']
        · simp only [height_node]
          by_cases hfar : height r = height t'' + 2
          · omega
          · have := s5 (by omega) (by omega); omega
        · simp only [height_node]
          by_cases hfar : height r = height t'' + 2
          · omega
          · have := s5 (by omega) (by omega); omega
      · -- found at this node
        have hq' : cmp k (key p) = false := by
          revert hq; cases cmp k (key p) <;> simp
        cases l with
        | nil =>
          cases r with
          | nil =>
            refine ⟨nil, [], [], p, h, by simp [erase_impl, hc', hq'],
              by simp, hc', hq', by simp, rfl, rfl, ?_, ?_⟩
            · rcases hdisj with hs | ⟨_, _, h0⟩ <;>
                · simp only [height_node, height_nil] at *; omega
            · rcases hdisj with hs | ⟨_, _, h0⟩ <;>
                · simp only [height_node, height_nil] at *; omega
          | node rl rr rh rp =>
            have hstrict : h = 1 + max 0 rh := by
              rcases hdisj with hs | ⟨_, hrnil, _⟩
              · simpa using hs
              · cases hrnil
            obtain ⟨hdisjr, irl, irr⟩ := hinv_node_iff.1 ir
            obtain ⟨hrb1, hrb2, brl, brr⟩ := balanced_node_iff.1 br
            have hreb : rebalance_and_seth (node rl rr rh rp) =
                node rl rr (1 + max (height rl) (height rr)) rp :=
              rebalance_eq_seth rl rr rh rp
                (cdiv_two_eq_zero (by omega) (by omega))
            refine ⟨rebalance_and_seth (node rl rr rh rp), [],
              toList rl ++ rp :: toList rr, p, h,
              by simp [erase_impl, hc', hq'], by simp, hc', hq',
              by rw [hreb]; simp, ?_, ?_, ?_, ?_⟩
            · rw [hreb]
              exact hinv_node_iff.2 ⟨Or.inl rfl, irl, irr⟩
            · rw [hreb]
              exact balanced_node_iff.2 ⟨by omega, by omega, brl, brr⟩
            · rw [hreb]
              simp only [height_node]
              rcases hdisjr with hs | ⟨rfl, rfl, h0⟩
              · omega
              · simp only [height_nil]; omega
            · rw [hreb]
              simp only [height_node]
              rcases hdisjr with hs | ⟨rfl, rfl, h0⟩
              · omega
              · simp only [height_nil]; omega
        | node ll lr lh lp =>
          have hstrict : h = 1 + max (height (node ll lr lh lp)) (height r) := by
            rcases hdisj with hs | ⟨hlnil, _, _⟩
            · exact hs
            · cases hlnil
          obtain ⟨l', dd, hpor, hLl, il', bl', hph1, hph2⟩ :=
            pull_out_rightmost_spec (node ll lr lh lp) (by simp) il bl
          obtain ⟨s1, s2, s3, s4, s5⟩ := rebalance_spec l' r dd.h dd.p il' ir
            bl' br (by simp only [height_node] at *; omega)
            (by simp only [height_node] at *; omega)
          refine ⟨rebalance_and_seth (node l' r dd.h dd.p),
            toList (node ll lr lh lp), toList r, p, h, ?_, by simp, hc', hq',
            ?_, s1, s2, ?_, ?_⟩
          · simp only [erase_impl, hc', hq', if_false, Bool.false_eq_true,
              hpor]
          · rw [toList_rebalance _ _ _ _
              (by simp only [height_node] at *; omega)
              (by simp only [height_node] at *; omega), hLl]
            simp
          · simp only [height_node] at *
            by_cases hfar : height r = height l' + 2
            · omega
            · have := s5 (by omega) (by omega); omega
          · simp only [height_node] at *
            by_cases hfar : height r = height l' + 2
            · omega
            · have := s5 (by omega) (by omega); omega


theorem sortedKeys_remove_middle {key : π → κ} {cmp : κ → κ → Bool}
    {A B : List π} {e : π} (hw : SortedKeys key cmp (A ++ e :: B)) :
    SortedKeys key cmp (A ++ B) := by
  obtain ⟨pA, pB, hAe, heB, cross⟩ := sortedKeys_append_iff.1 hw
  unfold SortedKeys
  rw [List.pairwise_append]
  exact ⟨pA, pB, fun a ha b hb => cross a ha b hb⟩

theorem sortedKeys_replace_middle {key : π → κ} {cmp : κ → κ → Bool}
    (swo : IsSWO cmp) {A B : List π} {e q : π}
    (hw : SortedKeys key cmp (A ++ e :: B))
    (he1 : cmp (key e) (key q) = false) (he2 : cmp (key q) (key e) = false) :
    SortedKeys key cmp (A ++ q :: B) := by
  obtain ⟨pA, pB, hAe, heB, cross⟩ := sortedKeys_append_iff.1 hw
  refine sortedKeys_append_iff.2 ⟨pA, pB, ?_, ?_, cross⟩
  · intro a ha
    exact swo.le_trans (key a) (key e) (key q) (hAe a ha) he2
  · intro b hb
    exact swo.le_trans (key q) (key e) (key b) he1 (heB b hb)

@[simp] theorem dirmost_nil (d : Bool) :
    dirmost (nil : AVLTree π) d = none := by
  cases d <;> rfl

/-- `dirmost(x, L)` reaches the head of the in-order sequence. -/
theorem dirmost_false_eq_head (t : AVLTree π) :
    dirmost t false = (toList t).head? := by
  induction t with
  | nil => rfl
  | node l r h p ihl ihr =>
    cases l with
    | nil => simp [dirmost]
    | node ll lr lh lp =>
      rw [show dirmost (node (node ll lr lh lp) r h p) false =
        dirmost (node ll lr lh lp) false from rfl, ihl]
      cases hll : toList (node ll lr lh lp) with
      | nil => simp at hll
      | cons x xs => simp [hll]

/-- `dirmost(x, R)` reaches the last element of the in-order sequence. -/
theorem dirmost_true_eq_getLast (t : AVLTree π) :
    dirmost t true = (toList t).getLast? := by
  induction t with
  | nil => rfl
  | node l r h p ihl ihr =>
    cases r with
    | nil =>
      show some p = (toList l ++ p :: toList nil).getLast?
      rw [List.getLast?_append_cons]
      rfl
    | node rl rr rh rp =>
      rw [show dirmost (node l (node rl rr rh rp) h p) true =
        dirmost (node rl rr rh rp) true from rfl, ihr]
      cases hrr : toList (node rl rr rh rp) with
      | nil => simp at hrr
      | cons x xs =>
        rw [toList_node, hrr, List.getLast?_append_cons]
        rw [show (x :: xs).getLast? = (p :: x :: xs).getLast? from
          List.getLast?_cons_cons.symm]


/-- The well-formedness bundle maintained by every public operation:
the (amended) height equation, child balance, and sorted in-order keys. -/
def WF (key : π → κ) (cmp : κ → κ → Bool) (t : AVLTree π) : Prop :=
  hinv t = true ∧ balanced t = true ∧ SortedKeys key cmp (toList t)

theorem WF_nil {key : π → κ} {cmp : κ → κ → Bool} :
    WF key cmp (nil : AVLTree π) := ⟨rfl, rfl, List.Pairwise.nil⟩

theorem not_equiv_forms {key : π → κ} {cmp : κ → κ → Bool}
    {t : AVLTree π} {k : κ}
    (hne : ¬ ∃ e ∈ toList t, cmp (key e) k = false ∧ cmp k (key e) = false) :
    ∀ e ∈ toList t, cmp (key e) k = true ∨ cmp k (key e) = true := by
  intro e he
  by_contra hcon
  push_neg at hcon
  obtain ⟨h1, h2⟩ := hcon
  simp only [Bool.not_eq_true] at h1 h2
  exact hne ⟨e, he, h1, h2⟩

theorem WF_insert {key : π → κ} {cmp : κ → κ → Bool} (swo : IsSWO cmp)
    (t : AVLTree π) (q : π) (wf : WF key cmp t) :
    WF key cmp (insert key cmp t ⟨q, 0⟩) := by
  obtain ⟨it, bt, hw⟩ := wf
  obtain ⟨i', b', _, _, _⟩ := insert_spec swo t q it bt hw
  exact ⟨i', b', sortedKeys_insert swo t q it bt hw⟩

theorem WF_applyOp {key : π → κ} {cmp : κ → κ → Bool} {mk : κ → π}
    (swo : IsSWO cmp) (hk : ∀ k, key (mk k) = k)
    (t : AVLTree π) (op : DictOp π κ) (wf : WF key cmp t) :
    WF key cmp (applyOp key cmp mk t op) := by
  obtain ⟨it, bt, hw⟩ := wf
  cases op with
  | insertU q => exact WF_insert swo t q ⟨it, bt, hw⟩
  | insertINE q =>
    by_cases hex : ∃ e ∈ toList t,
      cmp (key e) (key q) = false ∧ cmp (key q) (key e) = false
    · obtain ⟨p0, hife, _, _, _⟩ := ife_found_spec swo t q it bt hw hex
      simp only [applyOp, hife]
      exact ⟨it, bt, hw⟩
    · rw [show applyOp key cmp mk t (DictOp.insertINE q) =
        (insert_if_not_exists key cmp t ⟨q, 0⟩).1 from rfl,
        ife_eq_insert_of_not_mem t q (not_equiv_forms hex)]
      exact WF_insert swo t q ⟨it, bt, hw⟩
  | insertIOR q =>
    by_cases hex : ∃ e ∈ toList t,
      cmp (key e) (key q) = false ∧ cmp (key q) (key e) = false
    · obtain ⟨t', A, B, e, hior, hsplit, he1, he2, hL', hi', hb', _⟩ :=
        ior_found_spec swo t ⟨q, 0⟩ it bt hw hex
      simp only [applyOp, hior]
      refine ⟨hi', hb', ?_⟩
      rw [hL']
      rw [hsplit] at hw
      exact sortedKeys_replace_middle swo hw he1 he2
    · rw [show applyOp key cmp mk t (DictOp.insertIOR q) =
        (insert_or_replace key cmp t ⟨q, 0⟩).1 from rfl,
        ior_eq_insert_of_not_mem t ⟨q, 0⟩ (not_equiv_forms hex)]
      exact WF_insert swo t q ⟨it, bt, hw⟩
  | emplaceINE k =>
    by_cases hex : ∃ e ∈ toList t,
      cmp (key e) k = false ∧ cmp k (key e) = false
    · obtain ⟨p0, heine, _, _, _⟩ := eine_found_spec swo mk t k it bt hw hex
      simp only [applyOp, heine]
      exact ⟨it, bt, hw⟩
    · rw [show applyOp key cmp mk t (DictOp.emplaceINE k) =
        (emplace_if_not_exists key cmp mk t k).1 from rfl,
        eine_eq_insert_of_not_mem mk t k (hk k) (not_equiv_forms hex)]
      exact WF_insert swo t (mk k) ⟨it, bt, hw⟩
  | eraseK k =>
    by_cases hex : ∃ e ∈ toList t,
      cmp (key e) k = false ∧ cmp k (key e) = false
    · obtain ⟨t', A, B, e, h0, heq, hsplit, _, _, hL', hi', hb', _, _⟩ :=
        erase_impl_found swo t k it bt hw hex
      rw [show applyOp key cmp mk t (DictOp.eraseK k) =
        (AVLTree.erase key cmp t k).1 from rfl]
      unfold AVLTree.erase
      rw [heq]
      refine ⟨hi', hb', ?_⟩
      rw [hL']
      rw [hsplit] at hw
      exact sortedKeys_remove_middle hw
    · obtain ⟨_, hL, hi', hb', _, _⟩ :=
        erase_impl_not_mem t k (not_equiv_forms hex) it bt
      rw [show applyOp key cmp mk t (DictOp.eraseK k) =
        (AVLTree.erase key cmp t k).1 from rfl]
      unfold AVLTree.erase
      refine ⟨hi', hb', ?_⟩
      rw [hL]
      exact hw

theorem WF_applyOps {key : π → κ} {cmp : κ → κ → Bool} {mk : κ → π}
    (swo : IsSWO cmp) (hk : ∀ k, key (mk k) = k)
    (t : AVLTree π) (wf : WF key cmp t) (ops : List (DictOp π κ)) :
    WF key cmp (applyOps key cmp mk t ops) := by
  induction ops generalizing t with
  | nil => exact wf
  | cons op ops ih =>
    exact ih (applyOp key cmp mk t op) (WF_applyOp swo hk t op wf)


/-- Effect of one unconditional insert on the sub-sequence of elements
whose keys are equivalent to a fixed key `k`: a new equivalent element is
prepended (it lands before all its duplicates), anything else leaves the
sub-sequence alone. -/
theorem filter_toList_insert {key : π → κ} {cmp : κ → κ → Bool}
    (swo : IsSWO cmp) (t : AVLTree π) (q : π) (k : κ)
    (it : hinv t = true) (bt : balanced t = true)
    (hw : SortedKeys key cmp (toList t)) :
    (toList (insert key cmp t ⟨q, 0⟩)).filter
        (fun e => !cmp (key e) k && !cmp k (key e)) =
      if cmp (key q) k = false ∧ cmp k (key q) = false
      then q :: (toList t).filter (fun e => !cmp (key e) k && !cmp k (key e))
      else (toList t).filter (fun e => !cmp (key e) k && !cmp k (key e)) := by
  rw [(insert_spec swo t q it bt hw).2.2.2.2]
  rw [List.filter_append]
  have hsplit := List.takeWhile_append_dropWhile
    (p := fun e => cmp (key e) (key q)) (l := toList t)
  by_cases hq : cmp (key q) k = false ∧ cmp k (key q) = false
  · obtain ⟨hq1, hq2⟩ := hq
    have htw : ((toList t).takeWhile (fun e => cmp (key e) (key q))).filter
        (fun e => !cmp (key e) k && !cmp k (key e)) = [] := by
      apply List.filter_eq_nil_iff.2
      intro a ha
      have hlt := List.mem_takeWhile_imp ha
      simp only [decide_eq_true_iff] at hlt
      intro hcon
      simp only [Bool.and_eq_true, Bool.not_eq_true'] at hcon
      have : cmp (key a) (key q) = false :=
        swo.le_trans (key q) k (key a) hq2 hcon.1
      rw [this] at hlt; cases hlt
    rw [htw, if_pos ⟨hq1, hq2⟩]
    have hqf : (!cmp (key q) k && !cmp k (key q)) = true := by
      simp [hq1, hq2]
    rw [List.filter_cons, if_pos (by simp [hqf])]
    conv_rhs => rw [← hsplit]
    rw [List.filter_append, htw]
    simp
  · have hqf : (!cmp (key q) k && !cmp k (key q)) = false := by
      rcases (by revert hq; cases h1 : cmp (key q) k <;>
          cases h2 : cmp k (key q) <;> simp :
        cmp (key q) k = true ∨ cmp k (key q) = true) with h1 | h1 <;>
        simp [h1]
    rw [if_neg hq, List.filter_cons, if_neg (by simp [hqf])]
    conv_rhs => rw [← hsplit]
    rw [List.filter_append]

/-- The equivalence class of `k` in a multiset built by a sequence of
unconditional inserts lists the inserted duplicates in reverse
insertion order. -/
theorem multiset_fold_filter {key : π → κ} {cmp : κ → κ → Bool}
    (swo : IsSWO cmp) (k : κ) (qs : List π) :
    ∀ (t : AVLTree π), WF key cmp t →
    (toList (qs.foldl (fun t q => insert key cmp t ⟨q, 0⟩) t)).filter
        (fun e => !cmp (key e) k && !cmp k (key e)) =
      (qs.filter (fun e => !cmp (key e) k && !cmp k (key e))).reverse ++
        (toList t).filter (fun e => !cmp (key e) k && !cmp k (key e)) := by
  induction qs with
  | nil => intro t _; rfl
  | cons q qs ih =>
    intro t wf
    obtain ⟨it, bt, hw⟩ := wf
    rw [List.foldl_cons, ih (insert key cmp t ⟨q, 0⟩)
      (WF_insert swo t q ⟨it, bt, hw⟩)]
    rw [filter_toList_insert swo t q k it bt hw]
    by_cases hq : cmp (key q) k = false ∧ cmp k (key q) = false
    · rw [if_pos hq, List.filter_cons, if_pos (by simp [hq.1, hq.2])]
      simp
    · rw [if_neg hq, List.filter_cons, if_neg ?side]
      case side =>
        rcases (by revert hq; cases h1 : cmp (key q) k <;>
            cases h2 : cmp k (key q) <;> simp :
          cmp (key q) k = true ∨ cmp k (key q) = true) with h1 | h1 <;>
          simp [h1]

/-- In a sorted sequence, elements lying between two elements equivalent
to `k` are themselves equivalent to `k` (duplicates are adjacent). -/
theorem sortedKeys_equiv_adjacent {key : π → κ} {cmp : κ → κ → Bool}
    (swo : IsSWO cmp) {X Y Z : List π} {e1 e2 : π} {k : κ}
    (hw : SortedKeys key cmp (X ++ e1 :: (Y ++ e2 :: Z)))
    (h11 : cmp (key e1) k = false) (h12 : cmp k (key e1) = false)
    (h21 : cmp (key e2) k = false) (h22 : cmp k (key e2) = false) :
    ∀ y ∈ Y, cmp (key y) k = false ∧ cmp k (key y) = false := by
  intro y hy
  obtain ⟨_, pw2, _, h1B, _⟩ := sortedKeys_append_iff.1 hw
  have hy1 : cmp (key y) (key e1) = false := h1B y (by simp [hy])
  obtain ⟨_, _, hA2, _, _⟩ := sortedKeys_append_iff.1 pw2
  have hy2 : cmp (key e2) (key y) = false := hA2 y hy
  constructor
  · exact swo.le_trans k (key e1) (key y) h11 hy1
  · exact swo.le_trans (key y) (key e2) k hy2 h22


/-- Strictly increasing keys: the invariant of the unique-key containers
(Set, Map). -/
def StrictSortedKeys (key : π → κ) (cmp : κ → κ → Bool) (l : List π) :
    Prop :=
  l.Pairwise (fun a b => cmp (key a) (key b) = true)

theorem strictSortedKeys_sorted {key : π → κ} {cmp : κ → κ → Bool}
    (swo : IsSWO cmp) {l : List π} (h : StrictSortedKeys key cmp l) :
    SortedKeys key cmp l :=
  h.imp fun hr => swo.asymm hr

theorem pairwise_remove_middle {α : Type} {R : α → α → Prop}
    {A B : List α} {e : α} (h : List.Pairwise R (A ++ e :: B)) :
    List.Pairwise R (A ++ B) := by
  rw [List.pairwise_append] at h ⊢
  obtain ⟨pA, pB, cross⟩ := h
  exact ⟨pA, (List.pairwise_cons.1 pB).2,
    fun a ha b hb => cross a ha b (by simp [hb])⟩

theorem mem_strictSorted_unique {key : π → κ} {cmp : κ → κ → Bool}
    {L : List π} (hss : StrictSortedKeys key cmp L) {a b : π}
    (ha : a ∈ L) (hb : b ∈ L)
    (h1 : cmp (key a) (key b) = false) (h2 : cmp (key b) (key a) = false) :
    a = b := by
  by_contra hne
  have hsym : Symmetric (fun a b : π =>
      cmp (key a) (key b) = true ∨ cmp (key b) (key a) = true) := by
    intro x y hxy
    exact hxy.symm
  have := List.Pairwise.forall hsym
    (hss.imp fun hr => Or.inl hr) ha hb hne
  rcases this with h | h
  · rw [h1] at h; cases h
  · rw [h2] at h; cases h

theorem find?_split {α : Type} {p : α → Bool} {L : List α} {a : α}
    (h : L.find? p = some a) :
    ∃ L1 L2, L = L1 ++ a :: L2 ∧ ∀ x ∈ L1, p x = false := by
  induction L with
  | nil => simp at h
  | cons x L ih =>
    rw [List.find?_cons] at h
    by_cases hx : p x = true
    · simp only [hx] at h
      obtain rfl : x = a := by injection h
      exact ⟨[], L, rfl, by simp⟩
    · simp only [Bool.not_eq_true] at hx
      simp only [hx] at h
      obtain ⟨L1, L2, rfl, hclean⟩ := ih h
      refine ⟨x :: L1, L2, rfl, ?_⟩
      intro y hy
      rcases List.mem_cons.1 hy with rfl | hy'
      · exact hx
      · exact hclean y hy'

theorem find?_filter_congr {α : Type} {pred cond : α → Bool} {L : List α}
    (h : ∀ x ∈ L, pred x = false → cond x = false) :
    (L.filter pred).find? cond = L.find? cond := by
  induction L with
  | nil => rfl
  | cons x L ih =>
    have ih' := ih fun y hy hp => h y (by simp [hy]) hp
    rw [List.filter_cons]
    by_cases hx : pred x = true
    · rw [if_pos (by simp [hx]), List.find?_cons, List.find?_cons]
      by_cases hc : cond x = true
      · simp [hc]
      · simp only [Bool.not_eq_true] at hc
        simp [hc, ih']
    · simp only [Bool.not_eq_true] at hx
      rw [if_neg (by simp [hx])]
      have hcx : cond x = false := h x (by simp) hx
      rw [List.find?_cons]
      simp [hcx, ih']

theorem append_middle_unique {α : Type} {A B L1 L2 : List α} {e : α}
    (h : A ++ e :: B = L1 ++ e :: L2) (hA : e ∉ A) (h1 : e ∉ L1) :
    A = L1 ∧ B = L2 := by
  induction A generalizing L1 with
  | nil =>
    cases L1 with
    | nil => simpa using h
    | cons y L1 =>
      simp only [List.nil_append, List.cons_append, List.cons.injEq] at h
      exfalso
      exact h1 (by rw [← h.1]; exact List.mem_cons_self e L1)
  | cons x A ih =>
    cases L1 with
    | nil =>
      simp only [List.cons_append, List.nil_append, List.cons.injEq] at h
      exfalso
      exact hA (by rw [h.1]; exact List.mem_cons_self e A)
    | cons y L1 =>
      simp only [List.cons_append, List.cons.injEq] at h
      obtain ⟨rfl, h2⟩ := h
      obtain ⟨rfl, rfl⟩ := ih h2 (fun hc => hA (by simp [hc]))
        (fun hc => h1 (by simp [hc]))
      exact ⟨rfl, rfl⟩


/-- The stopping `for_each` pass records the key of the first in-order
element satisfying the condition. -/
theorem firstSat_eq {key : π → κ} (cond : π → Bool) (t : AVLTree π) :
    firstSat key cond t = ((toList t).find? cond).map key := by
  induction t with
  | nil => rfl
  | node l r h p ihl ihr =>
    rw [toList_node, List.find?_append]
    show (match firstSat key cond l with
      | some k => some k
      | none => if cond p then some (key p) else firstSat key cond r) = _
    cases hA : (toList l).find? cond with
    | some a => rw [ihl, hA]; rfl
    | none =>
      rw [ihl, hA]
      show (if cond p then some (key p) else firstSat key cond r) = _
      rw [List.find?_cons]
      by_cases hc : cond p = true
      · simp [hc]
      · simp only [Bool.not_eq_true] at hc
        simp [hc, ihr]

/-- The `foreach_since_upper_bound` pass scans, in order, exactly the
elements whose key is strictly greater than `k`. -/
theorem firstSatSinceUB_eq {key : π → κ} {cmp : κ → κ → Bool}
    (swo : IsSWO cmp) (cond : π → Bool) (t : AVLTree π) (k : κ)
    (hw : SortedKeys key cmp (toList t)) :
    firstSatSinceUB key cmp cond t k =
      (((toList t).filter (fun e => cmp k (key e))).find? cond).map key := by
  induction t with
  | nil => rfl
  | node l r h p ihl ihr =>
    rw [toList_node] at hw ⊢
    obtain ⟨pwA, pwB, hAp, hpB, cross⟩ := sortedKeys_append_iff.1 hw
    rw [List.filter_append, List.filter_cons]
    by_cases hc : cmp k (key p) = true
    · have hBall : (toList r).filter (fun e => cmp k (key e)) = toList r :=
        List.filter_eq_self.2 fun b hb => by
          simpa using swo.lt_le hc (hpB b hb)
      have hunf : firstSatSinceUB key cmp cond (node l r h p) k =
          match firstSatSinceUB key cmp cond l k with
          | some k' => some k'
          | none => if cond p then some (key p) else firstSat key cond r := by
        simp [firstSatSinceUB, hc]
      rw [if_pos (by simpa using hc), List.find?_append, hunf, ihl pwA]
      cases hA : ((toList l).filter (fun e => cmp k (key e))).find? cond with
      | some a => simp [hA]
      | none =>
        simp only [hA, Option.map_none']
        rw [List.find?_cons]
        by_cases hcp : cond p = true
        · simp [hcp]
        · simp only [Bool.not_eq_true] at hcp
          simp [hcp, firstSat_eq, hBall]
    · have hc' : cmp k (key p) = false := by
        revert hc; cases cmp k (key p) <;> simp
      have hAnone : (toList l).filter (fun e => cmp k (key e)) = [] :=
        List.filter_eq_nil_iff.2 fun a ha => by
          simp [swo.le_trans (key a) (key p) k (hAp a ha) hc']
      have hunf : firstSatSinceUB key cmp cond (node l r h p) k =
          firstSatSinceUB key cmp cond r k := by
        simp [firstSatSinceUB, hc']
      rw [hunf, if_neg (by simp [hc']), hAnone, List.nil_append]
      exact ihr pwB


/-- Invariant of `filter`'s erase-then-resume loop: the `key_opt` value
designates the first in-order element satisfying the condition, and every
element before it does not satisfy the condition. -/
def FilterScan {π κ : Type} (key : π → κ) (cond : π → Bool)
    (t : AVLTree π) : Option κ → Prop
  | none => ∀ e ∈ toList t, cond e = false
  | some k' => ∃ L1 e0 L2, toList t = L1 ++ e0 :: L2 ∧ k' = key e0 ∧
      cond e0 = true ∧ ∀ x ∈ L1, cond x = false

/-- Correctness of the `while (key_opt.has_value())` loop of `filter`:
with enough fuel (one unit per element) it removes exactly the elements
satisfying the condition, preserving order, the balance invariants, and
strict sortedness. -/
theorem filterLoop_spec {key : π → κ} {cmp : κ → κ → Bool}
    (swo : IsSWO cmp) (cond : π → Bool) :
    ∀ (fuel : Nat) (t : AVLTree π) (o : Option κ),
    hinv t = true → balanced t = true →
    StrictSortedKeys key cmp (toList t) →
    (toList t).length ≤ fuel →
    FilterScan key cond t o →
    toList (filterLoop key cmp cond fuel t o) =
        (toList t).filter (fun e => !cond e) ∧
    hinv (filterLoop key cmp cond fuel t o) = true ∧
    balanced (filterLoop key cmp cond fuel t o) = true ∧
    StrictSortedKeys key cmp (toList (filterLoop key cmp cond fuel t o)) := by
  intro fuel
  induction fuel with
  | zero =>
    intro t o it bt hss hlen hscan
    cases o with
    | none =>
      refine ⟨?_, it, bt, hss⟩
      rw [List.filter_eq_self.2 fun e he => by simp [hscan e he]]
      rfl
    | some k' =>
      obtain ⟨L1, e0, L2, hsplit, _, _, _⟩ := hscan
      rw [hsplit] at hlen
      simp at hlen
  | succ fuel ih =>
    intro t o it bt hss hlen hscan
    cases o with
    | none =>
      refine ⟨?_, it, bt, hss⟩
      rw [List.filter_eq_self.2 fun e he => by simp [hscan e he]]
      rfl
    | some k' =>
      obtain ⟨L1, e0, L2, hsplit, hk', hce0, hclean⟩ := hscan
      have hsorted : SortedKeys key cmp (toList t) :=
        strictSortedKeys_sorted swo hss
      have hex : ∃ e ∈ toList t,
          cmp (key e) k' = false ∧ cmp k' (key e) = false := by
        refine ⟨e0, by rw [hsplit]; simp, ?_, ?_⟩ <;>
          rw [hk'] <;> exact swo.irrefl _
      obtain ⟨t', A, B, e, h0, heq, hsplit2, he1, he2, hL', hi', hb', _, _⟩ :=
        erase_impl_found swo t k' it bt hsorted hex
      have hee0 : e = e0 := by
        apply mem_strictSorted_unique hss (by rw [hsplit2]; simp)
          (by rw [hsplit]; simp)
        · rw [hk'] at he1; exact he1
        · rw [hk'] at he2; exact he2
      subst hee0
      have hnotA : e ∉ A := by
        intro hmem
        have hss2 := hss
        rw [hsplit2] at hss2
        unfold StrictSortedKeys at hss2
        rw [List.pairwise_append] at hss2
        have := hss2.2.2 e hmem e (by simp)
        rw [swo.irrefl (key e)] at this
        cases this
      have hnotL1 : e ∉ L1 := by
        intro hmem
        have hss2 := hss
        rw [hsplit] at hss2
        unfold StrictSortedKeys at hss2
        rw [List.pairwise_append] at hss2
        have := hss2.2.2 e hmem e (by simp)
        rw [swo.irrefl (key e)] at this
        cases this
      obtain ⟨rfl, rfl⟩ :=
        append_middle_unique (by rw [← hsplit2, ← hsplit]) hnotA hnotL1
      -- the tree after the erase
      have hss' : StrictSortedKeys key cmp (toList t') := by
        rw [hL']
        rw [hsplit] at hss
        exact pairwise_remove_middle hss
      have hsorted' : SortedKeys key cmp (toList t') :=
        strictSortedKeys_sorted swo hss'
      have hloop : filterLoop key cmp cond (fuel + 1) t (some k') =
          filterLoop key cmp cond fuel (AVLTree.erase key cmp t k').1
            (firstSatSinceUB key cmp cond (AVLTree.erase key cmp t k').1 k') :=
        rfl
      have herase : (AVLTree.erase key cmp t k').1 = t' := by
        unfold AVLTree.erase
        rw [heq]
      -- characterize the rescan
      have hscan' : firstSatSinceUB key cmp cond t' k' =
          ((toList t').find? cond).map key := by
        rw [firstSatSinceUB_eq swo cond t' k' hsorted']
        congr 1
        apply find?_filter_congr
        intro x hx hpred
        rw [hL'] at hx
        rcases List.mem_append.1 hx with hx1 | hx2
        · exact hclean x hx1
        · exfalso
          have hss2 := hss
          rw [hsplit] at hss2
          unfold StrictSortedKeys at hss2
          rw [List.pairwise_append] at hss2
          have := (List.pairwise_cons.1 hss2.2.1).1 x hx2
          rw [hk'] at hpred
          rw [hpred] at this
          cases this
      have hscan2 : FilterScan key cond t'
          (firstSatSinceUB key cmp cond t' k') := by
        rw [hscan']
        cases hf : (toList t').find? cond with
        | none =>
          intro x hx
          have := List.find?_eq_none.1 hf x hx
          revert this
          cases cond x <;> simp
        | some a =>
          obtain ⟨M1, M2, hM, hMclean⟩ := find?_split hf
          exact ⟨M1, a, M2, hM, rfl, List.find?_some hf, hMclean⟩
      have hlen' : (toList t').length ≤ fuel := by
        rw [hL']
        rw [hsplit] at hlen
        simp at hlen ⊢
        omega
      obtain ⟨c1, c2, c3, c4⟩ := ih t' (firstSatSinceUB key cmp cond t' k')
        hi' hb' hss' hlen' hscan2
      rw [hloop, herase]
      refine ⟨?_, c2, c3, c4⟩
      rw [c1, hL', hsplit, List.filter_append, List.filter_append,
        List.filter_cons]
      simp [hce0]


theorem filterLoop_none {key : π → κ} {cmp : κ → κ → Bool}
    {cond : π → Bool} (fuel : Nat) (t : AVLTree π) :
    filterLoop key cmp cond fuel t none = t := by
  cases fuel <;> rfl

/-- `filter(condition)`: removes exactly the elements satisfying the
condition, preserves the relative order of the survivors, and keeps the
tree invariants. -/
theorem filter_spec {key : π → κ} {cmp : κ → κ → Bool}
    (swo : IsSWO cmp) (cond : π → Bool) (t : AVLTree π)
    (it : hinv t = true) (bt : balanced t = true)
    (hss : StrictSortedKeys key cmp (toList t)) :
    toList (filter key cmp cond t) = (toList t).filter (fun e => !cond e) ∧
    hinv (filter key cmp cond t) = true ∧
    balanced (filter key cmp cond t) = true ∧
    StrictSortedKeys key cmp (toList (filter key cmp cond t)) := by
  unfold filter
  apply filterLoop_spec swo cond (count t) t (firstSat key cond t) it bt hss
    (by rw [count_eq_length_toList])
  rw [firstSat_eq]
  cases hf : (toList t).find? cond with
  | none =>
    intro x hx
    have := List.find?_eq_none.1 hf x hx
    revert this
    cases cond x <;> simp
  | some a =>
    obtain ⟨M1, M2, hM, hMclean⟩ := find?_split hf
    exact ⟨M1, a, M2, hM, rfl, List.find?_some hf, hMclean⟩

/-- `filter` with a condition that holds for no element leaves the
dictionary literally untouched: the first scanning pass records no key
and the erase loop never runs. -/
theorem filter_noop {key : π → κ} {cmp : κ → κ → Bool}
    (cond : π → Bool) (t : AVLTree π)
    (hno : ∀ e ∈ toList t, cond e = false) :
    filter key cmp cond t = t := by
  unfold filter
  rw [show firstSat key cond t = none from by
    rw [firstSat_eq, List.find?_eq_none.2 fun a ha => by simp [hno a ha]]
    rfl]
  exact filterLoop_none (count t) t

end AVLTree

namespace PoolState

variable {ν : Type}

/-- The cell is a free-list pointer bounded by `m`. -/
def cellPtrLe (c : PoolCell ν) (m : Nat) : Bool :=
  match c with
  | .ptr n => decide (n ≤ m)
  | .val _ => false

/-- Free-list sanity: every free slot is a real slot holding a next
pointer that does not exceed the capacity (the growth code relies on
`new_capacity > capacity()` to tell free from occupied cells). -/
def PoolWF (p : PoolState ν) : Prop :=
  ∀ j ∈ p.freeList, j < p.capacity ∧ cellPtrLe (p.data j) p.capacity = true

theorem fold_updFn_eq (g : Nat → PoolCell ν) (L : List Nat)
    (v : Nat → PoolCell ν) (i : Nat) :
    (L.foldl (fun d j => updFn d j (v j)) g) i =
      if i ∈ L then v i else g i := by
  induction L generalizing g with
  | nil => simp
  | cons j L ih =>
    rw [List.foldl_cons, ih]
    by_cases hiL : i ∈ L
    · simp [hiL]
    · by_cases hij : i = j
      · subst hij
        simp [hiL, updFn]
      · simp [hiL, hij, updFn]

/-- Index stability of `reserve_for`'s growth: every cell below the old
capacity is preserved bit-for-bit (occupied nodes stay at their handles,
free slots keep their next pointers), and the new region is threaded
`ptr(i) = i + 1`. -/
theorem grownData_spec (p : PoolState ν) (newCap : Nat)
    (hwf : PoolWF p) (hcap : p.capacity < newCap) :
    (∀ i, i < p.capacity → grownData p newCap i = p.data i) ∧
    (∀ i, p.capacity ≤ i → grownData p newCap i = PoolCell.ptr (i + 1)) := by
  constructor
  · intro i hi
    unfold grownData
    simp only [fold_updFn_eq]
    by_cases hmem : i ∈ p.freeList
    · obtain ⟨_, hcell⟩ := hwf i hmem
      cases hdata : p.data i with
      | val v => rw [hdata] at hcell; cases hcell
      | ptr n =>
        rw [hdata] at hcell
        have hn : n ≤ p.capacity := by simpa [cellPtrLe] using hcell
        have hptr : p.ptrAt i = n := by unfold ptrAt; rw [hdata]
        rw [if_pos hmem, if_pos hi, hptr]
        have : n ≠ newCap := by omega
        simp [this, hdata]
    · rw [if_neg hmem, if_pos hi, if_pos hi]
      simp
  · intro i hi
    unfold grownData
    simp only [fold_updFn_eq]
    have hmem : i ∉ p.freeList := fun hmem => by
      have := (hwf i hmem).1; omega
    rw [if_neg hmem, if_neg (by omega), if_neg (by omega)]

/-- `reserve_for(n)` with `n < capacity()` returns immediately: no
failure, no growth, no allocation. -/
theorem reserveFor_noop (maxCap : Nat) (p : PoolState ν) (n : Nat)
    (h : n < p.capacity) : reserveFor maxCap p n = Except.ok p := by
  unfold reserveFor
  rw [if_pos h]

/-- `reserve_for` raises AllocatorExhausted exactly when `n ≥ capacity`
and the capacity has already reached the maximal index value. -/
theorem reserveFor_error_iff (maxCap : Nat) (p : PoolState ν) (n : Nat) :
    reserveFor maxCap p n = Except.error PoolErr.allocatorExhausted ↔
      ¬ n < p.capacity ∧ p.capacity = maxCap := by
  unfold reserveFor
  by_cases h1 : n < p.capacity
  · simp [h1]
  · by_cases h2 : p.capacity = maxCap <;> simp [h1, h2]

/-- `allocate` raises AllocatorExhausted exactly when the free list is
exhausted (`head == capacity`) and the capacity is already maximal. -/
theorem allocate_error_iff (maxCap : Nat) (p : PoolState ν) :
    allocate maxCap p = Except.error PoolErr.allocatorExhausted ↔
      p.head = p.capacity ∧ p.capacity = maxCap := by
  unfold allocate
  by_cases h1 : p.head = p.capacity
  · by_cases h2 : p.capacity = maxCap <;> simp [h1, h2]
  · simp [h1]

/-- Successful `reserve_for(n)` on a growth: capacity reaches at least
`n`, the free-list head is untouched (no node is allocated), every cell
below the old capacity is preserved at its index, and the new region is
threaded into a free list. -/
theorem reserveFor_grow_spec (maxCap : Nat) (p : PoolState ν) (n : Nat)
    (hwf : PoolWF p) (hge : ¬ n < p.capacity) (hne : p.capacity ≠ maxCap)
    (h1 : 1 ≤ p.capacity) (h2 : p.capacity ≤ maxCap) :
    ∃ p', reserveFor maxCap p n = Except.ok p' ∧
      n ≤ p'.capacity ∧ p.capacity < p'.capacity ∧
      p'.head = p.head ∧
      (∀ i, i < p.capacity → p'.data i = p.data i) ∧
      (∀ i, p.capacity ≤ i → p'.data i = PoolCell.ptr (i + 1)) := by
  have hlt : p.capacity < max n
      (if p.capacity < maxCap / 2 then p.capacity * 2 else maxCap) := by
    by_cases hc : p.capacity < maxCap / 2
    · rw [if_pos hc]; omega
    · rw [if_neg hc]; omega
  obtain ⟨hpres, hnew⟩ := grownData_spec p
    (max n (if p.capacity < maxCap / 2 then p.capacity * 2 else maxCap))
    hwf hlt
  refine ⟨⟨p.grownData
      (max n (if p.capacity < maxCap / 2 then p.capacity * 2 else maxCap)),
    max n (if p.capacity < maxCap / 2 then p.capacity * 2 else maxCap),
    p.head⟩, ?_, by simp, hlt, rfl, hpres, hnew⟩
  unfold reserveFor
  rw [if_neg hge, if_neg hne]

/-- Successful `allocate`: the returned slot is the old free-list head;
on the growth path (empty free list, all cells occupied) every old cell
is preserved at its index and the new region is threaded `ptr(i)=i+1`. -/
theorem allocate_spec (maxCap : Nat) (p : PoolState ν)
    (hne : ¬ (p.head = p.capacity ∧ p.capacity = maxCap)) :
    ∃ p' i, allocate maxCap p = Except.ok (p', i) ∧ i = p.head ∧
      (p.head = p.capacity →
        (∀ j, j < p.capacity → p'.data j = p.data j) ∧
        (∀ j, p.capacity ≤ j → j < p'.capacity →
          p'.data j = PoolCell.ptr (j + 1))) ∧
      (p.head ≠ p.capacity → p'.data = p.data ∧
        p'.capacity = p.capacity ∧ p'.head = p.ptrAt p.head) := by
  unfold allocate
  by_cases h1 : p.head = p.capacity
  · have h2 : p.capacity ≠ maxCap := fun hc => hne ⟨h1, hc⟩
    rw [if_pos h1, if_neg h2]
    refine ⟨_, _, rfl, rfl, fun _ => ⟨?_, ?_⟩, fun hc => absurd h1 hc⟩
    · intro j hj
      simp [if_pos hj]
    · intro j hj1 hj2
      simp [if_neg (by omega : ¬ j < p.capacity)]
  · rw [if_neg h1]
    exact ⟨_, _, rfl, rfl, fun hc => absurd hc h1, fun _ => ⟨rfl, rfl, rfl⟩⟩

end PoolState

namespace AVLTree

variable {π : Type} {κ : Type}

theorem toList_eq_nil_iff {t : AVLTree π} : toList t = [] ↔ t = nil := by
  cases t <;> simp

/-- The head of a sorted sequence is minimal: no element's key compares
less than its key. -/
theorem sorted_head_min {key : π → κ} {cmp : κ → κ → Bool}
    (swo : IsSWO cmp) {L : List π} (hw : SortedKeys key cmp L) {pf : π}
    (hh : L.head? = some pf) :
    ∀ e ∈ L, cmp (key e) (key pf) = false := by
  cases L with
  | nil => cases hh
  | cons x L =>
    obtain rfl : x = pf := by injection hh
    intro e he
    rcases List.mem_cons.1 he with rfl | he'
    · exact swo.irrefl _
    · exact (List.pairwise_cons.1 hw).1 e he'

/-- The last element of a sorted sequence is maximal: its key compares
less than no element's key. -/
theorem sorted_last_max {key : π → κ} {cmp : κ → κ → Bool}
    (swo : IsSWO cmp) {L : List π} (hw : SortedKeys key cmp L) {pb : π}
    (hh : L.getLast? = some pb) :
    ∀ e ∈ L, cmp (key pb) (key e) = false := by
  have hne : L ≠ [] := by rintro rfl; cases hh
  have hsplit := List.dropLast_append_getLast hne
  have hpb : L.getLast hne = pb := by
    rw [List.getLast?_eq_getLast L hne] at hh
    injection hh
  intro e he
  rw [← hsplit] at hw he
  unfold SortedKeys at hw
  rw [List.pairwise_append] at hw
  rcases List.mem_append.1 he with he' | he'
  · rw [hpb] at hw
    exact hw.2.2 e he' pb (by simp)
  · have : e = pb := by rw [← hpb]; simpa using he'
    subst this
    exact swo.irrefl _

end AVLTree

/-! ## Concrete instantiations used in witnesses and counterexamples -/

/-- `std::less<>` on machine integers. -/
def natLt : Nat → Nat → Bool := fun a b => decide (a < b)

theorem natLt_swo : IsSWO natLt := by
  refine ⟨fun a => ?_, fun a b c h1 h2 => ?_, fun a b c h1 h2 => ?_⟩ <;>
    simp [natLt] at * <;> omega

/-- Key accessor of Multiset/Multimap pair payloads compared by first
component (`MemberComparator`-style keying). -/
def pfst : Nat × Nat → Nat := Prod.fst

namespace AVLTree

variable {π : Type} {κ : Type}

theorem WF_foldl_insert {key : π → κ} {cmp : κ → κ → Bool}
    (swo : IsSWO cmp) (qs : List π) :
    ∀ (t : AVLTree π), WF key cmp t →
      WF key cmp (qs.foldl (fun t q => insert key cmp t ⟨q, 0⟩) t) := by
  induction qs with
  | nil => exact fun t wf => wf
  | cons q qs ih =>
    intro t wf
    exact ih (insert key cmp t ⟨q, 0⟩) (WF_insert swo t q wf)

/-- **C1, counterexample.**  The claim requires every occupied node's
stored height to equal `1 + max` of its children's heights after every
operation.  After the one-operation sequence "insert 5 into an empty
Set", the root is the freshly allocated node (`allocate_node(..., nil,
nil, uint8_t{0})`) with stored height 0 — no `seth` ever runs on it —
while the claimed equation demands `1 + max(0, 0) = 1`.  The balance
half of the invariant does hold. -/
theorem claim_C1_counterexample :
    applyOps id natLt id AVLTree.nil [DictOp.insertINE 5] =
      AVLTree.node AVLTree.nil AVLTree.nil 0 5 ∧
    hinvStrict (applyOps id natLt id AVLTree.nil [DictOp.insertINE 5]) =
      false ∧
    balanced (applyOps id natLt id AVLTree.nil [DictOp.insertINE 5]) =
      true := by
  decide

/-- **C1, amended.**  For every sequence of insert/emplace/erase
operations applied to an empty dictionary with a strict-weak-order
comparator: after every operation the children of each occupied node
differ in stored height by at most one; each occupied node stores
`1 + max` of its children's heights, except that a childless node may
still carry the height 0 it was allocated with; and the in-order
traversal visits keys in sorted order for the comparator. -/
theorem claim_C1_amended {π κ : Type} (key : π → κ) (cmp : κ → κ → Bool)
    (mk : κ → π) (swo : IsSWO cmp) (hk : ∀ k, key (mk k) = k)
    (ops : List (DictOp π κ)) :
    balanced (applyOps key cmp mk AVLTree.nil ops) = true ∧
    hinv (applyOps key cmp mk AVLTree.nil ops) = true ∧
    SortedKeys key cmp (toList (applyOps key cmp mk AVLTree.nil ops)) := by
  obtain ⟨a, b, c⟩ := WF_applyOps swo hk AVLTree.nil WF_nil ops
  exact ⟨b, a, c⟩

/-- **C1, witness.**  The amended claim applied to a concrete mixed
sequence of all five operation kinds on an integer Set/Map dictionary. -/
theorem claim_C1_witness :
    balanced (applyOps id natLt id AVLTree.nil
      [DictOp.insertINE 5, DictOp.insertU 3, DictOp.insertIOR 7,
        DictOp.emplaceINE 4, DictOp.eraseK 5]) = true ∧
    hinv (applyOps id natLt id AVLTree.nil
      [DictOp.insertINE 5, DictOp.insertU 3, DictOp.insertIOR 7,
        DictOp.emplaceINE 4, DictOp.eraseK 5]) = true ∧
    SortedKeys id natLt (toList (applyOps id natLt id AVLTree.nil
      [DictOp.insertINE 5, DictOp.insertU 3, DictOp.insertIOR 7,
        DictOp.emplaceINE 4, DictOp.eraseK 5])) :=
  claim_C1_amended id natLt id natLt_swo (fun _ => rfl)
    [DictOp.insertINE 5, DictOp.insertU 3, DictOp.insertIOR 7,
      DictOp.emplaceINE 4, DictOp.eraseK 5]

/-- **C8, counterexample.**  Inserting `(1,0)` then `(1,1)` into a
multiset keyed by the first component yields the in-order traversal
`[(1,1), (1,0)]`: the later-inserted duplicate comes first, not the
earlier-inserted one as the claim states (`insert` sends an equivalent
key into the left subtree, placing it before the existing duplicates). -/
theorem claim_C8_counterexample :
    toList ([((1 : Nat), (0 : Nat)), (1, 1)].foldl
        (fun t q => insert pfst natLt t ⟨q, 0⟩) AVLTree.nil) =
      [(1, 1), (1, 0)] ∧
    toList ([((1 : Nat), (0 : Nat)), (1, 1)].foldl
        (fun t q => insert pfst natLt t ⟨q, 0⟩) AVLTree.nil) ≠
      [(1, 0), (1, 1)] := by
  decide

/-- **C8, amended.**  After any sequence of unconditional inserts into an
empty Multiset/Multimap: the in-order traversal is non-decreasing for the
comparator; elements with keys equivalent to any fixed key form exactly
the reverse of their insertion order (later-inserted duplicates are
visited first); and any element lying between two elements equivalent to
a key is itself equivalent to it (duplicates are adjacent). -/
theorem claim_C8_amended {π κ : Type} (key : π → κ) (cmp : κ → κ → Bool)
    (swo : IsSWO cmp) (qs : List π) :
    SortedKeys key cmp (toList (qs.foldl
      (fun t q => insert key cmp t ⟨q, 0⟩) AVLTree.nil)) ∧
    (∀ k : κ, (toList (qs.foldl
        (fun t q => insert key cmp t ⟨q, 0⟩) AVLTree.nil)).filter
          (fun e => !cmp (key e) k && !cmp k (key e)) =
      (qs.filter (fun e => !cmp (key e) k && !cmp k (key e))).reverse) ∧
    (∀ (X Y Z : List π) (e1 e2 : π) (k : κ),
      toList (qs.foldl (fun t q => insert key cmp t ⟨q, 0⟩) AVLTree.nil) =
          X ++ e1 :: (Y ++ e2 :: Z) →
      cmp (key e1) k = false → cmp k (key e1) = false →
      cmp (key e2) k = false → cmp k (key e2) = false →
      ∀ y ∈ Y, cmp (key y) k = false ∧ cmp k (key y) = false) := by
  obtain ⟨it, bt, hw⟩ := WF_foldl_insert swo qs AVLTree.nil WF_nil
  refine ⟨hw, ?_, ?_⟩
  · intro k
    simpa using multiset_fold_filter swo k qs AVLTree.nil WF_nil
  · intro X Y Z e1 e2 k hsplit h11 h12 h21 h22
    rw [hsplit] at hw
    exact sortedKeys_equiv_adjacent swo hw h11 h12 h21 h22

/-- **C8, witness.**  The reverse-insertion-order law evaluated on the
concrete multiset insertion sequence `(1,0), (1,1), (2,5)` at key 1. -/
theorem claim_C8_witness :
    (toList ([((1 : Nat), (0 : Nat)), (1, 1), (2, 5)].foldl
        (fun t q => insert pfst natLt t ⟨q, 0⟩) AVLTree.nil)).filter
          (fun e => !natLt (pfst e) 1 && !natLt 1 (pfst e)) =
      ([((1 : Nat), (0 : Nat)), (1, 1), (2, 5)].filter
          (fun e => !natLt (pfst e) 1 && !natLt 1 (pfst e))).reverse :=
  (claim_C8_amended pfst natLt natLt_swo [(1, 0), (1, 1), (2, 5)]).2.1 1

end AVLTree

namespace AVLTree

/-- **C2, counterexample.**  In the set `{3, 5, 10, 20}` the key 4 is not
present, yet `erase(4)` — which rebalances every node on the search path
even when nothing is deleted — rotates the tree: the tree structure is
NOT left unchanged, contradicting the claim.  The return value is
`false` and the traversal is unchanged, as claimed. -/
theorem claim_C2_counterexample :
    find id natLt
      (applyOps id natLt id AVLTree.nil
        [DictOp.insertINE 10, DictOp.insertINE 5, DictOp.insertINE 3,
          DictOp.insertINE 20]) 4 = none ∧
    (erase id natLt
      (applyOps id natLt id AVLTree.nil
        [DictOp.insertINE 10, DictOp.insertINE 5, DictOp.insertINE 3,
          DictOp.insertINE 20]) 4).2 = false ∧
    toList (erase id natLt
      (applyOps id natLt id AVLTree.nil
        [DictOp.insertINE 10, DictOp.insertINE 5, DictOp.insertINE 3,
          DictOp.insertINE 20]) 4).1 =
      toList (applyOps id natLt id AVLTree.nil
        [DictOp.insertINE 10, DictOp.insertINE 5, DictOp.insertINE 3,
          DictOp.insertINE 20]) ∧
    (erase id natLt
      (applyOps id natLt id AVLTree.nil
        [DictOp.insertINE 10, DictOp.insertINE 5, DictOp.insertINE 3,
          DictOp.insertINE 20]) 4).1 ≠
      applyOps id natLt id AVLTree.nil
        [DictOp.insertINE 10, DictOp.insertINE 5, DictOp.insertINE 3,
          DictOp.insertINE 20] := by
  decide

/-- **C2, amended.**  For every well-formed dictionary whose `size_`
counter matches the number of stored elements and every key `k`:
if no element's key is equivalent to `k`, `erase(k)` returns `false` and
leaves the in-order traversal and `size()` unchanged (the tree structure
may be restructured by the rebalancing pass along the search path) and
preserves the invariants; if some element's key is equivalent to `k`, it
returns `true`, decreases `size()` by exactly one, removes exactly one
element with an equivalent key from the traversal (all others survive in
order), and preserves the height and balance invariants and sortedness. -/
theorem claim_C2_amended {π κ : Type} (key : π → κ) (cmp : κ → κ → Bool)
    (swo : IsSWO cmp) (d : Dict π) (k : κ)
    (it : hinv d.root = true) (bt : balanced d.root = true)
    (hw : SortedKeys key cmp (toList d.root))
    (hsz : d.size_ = (toList d.root).length) :
    ((∀ e ∈ toList d.root, cmp (key e) k = true ∨ cmp k (key e) = true) →
      (Dict.erase key cmp d k).2 = false ∧
      toList (Dict.erase key cmp d k).1.root = toList d.root ∧
      (Dict.erase key cmp d k).1.size_ = d.size_ ∧
      hinv (Dict.erase key cmp d k).1.root = true ∧
      balanced (Dict.erase key cmp d k).1.root = true ∧
      SortedKeys key cmp (toList (Dict.erase key cmp d k).1.root)) ∧
    ((∃ e ∈ toList d.root,
        cmp (key e) k = false ∧ cmp k (key e) = false) →
      (Dict.erase key cmp d k).2 = true ∧
      (Dict.erase key cmp d k).1.size_ + 1 = d.size_ ∧
      (∃ A B e, toList d.root = A ++ e :: B ∧
        cmp (key e) k = false ∧ cmp k (key e) = false ∧
        toList (Dict.erase key cmp d k).1.root = A ++ B) ∧
      hinv (Dict.erase key cmp d k).1.root = true ∧
      balanced (Dict.erase key cmp d k).1.root = true ∧
      SortedKeys key cmp (toList (Dict.erase key cmp d k).1.root)) := by
  constructor
  · intro hno
    obtain ⟨n2, nL, ni, nb, _, _⟩ := erase_impl_not_mem d.root k hno it bt
    refine ⟨?_, ?_, ?_, ?_, ?_, ?_⟩
    · simp [Dict.erase, AVLTree.erase, n2]
    · simpa [Dict.erase, AVLTree.erase] using nL
    · simp [Dict.erase, AVLTree.erase, n2]
    · simpa [Dict.erase, AVLTree.erase] using ni
    · simpa [Dict.erase, AVLTree.erase] using nb
    · have : toList (Dict.erase key cmp d k).1.root = toList d.root := by
        simpa [Dict.erase, AVLTree.erase] using nL
      rw [this]; exact hw
  · intro hyes
    obtain ⟨t2, A, B, e, h0, heq, hsplit, he1, he2, hL, hi, hb, _, _⟩ :=
      erase_impl_found swo d.root k it bt hw hyes
    have hroot : (Dict.erase key cmp d k).1.root = t2 := by
      simp [Dict.erase, AVLTree.erase, heq]
    have hpos : 0 < d.size_ := by
      rw [hsz, hsplit]; simp
    refine ⟨?_, ?_, ⟨A, B, e, hsplit, he1, he2, ?_⟩, ?_, ?_, ?_⟩
    · simp [Dict.erase, AVLTree.erase, heq]
    · have : (Dict.erase key cmp d k).1.size_ = d.size_ - 1 := by
        simp [Dict.erase, AVLTree.erase, heq]
      omega
    · rw [hroot]; exact hL
    · rw [hroot]; exact hi
    · rw [hroot]; exact hb
    · rw [hroot, hL]
      exact sortedKeys_remove_middle (hsplit ▸ hw)

/-- **C2, witness.**  The amended erase law evaluated on the concrete
set `{3, 5, 10, 20}`: erasing the absent key 4 returns `false` with the
traversal unchanged; erasing the present key 5 returns `true` and drops
the size from 4 to 3. -/
theorem claim_C2_witness :
    (Dict.erase id natLt
      ⟨applyOps id natLt id AVLTree.nil
        [DictOp.insertINE 10, DictOp.insertINE 5, DictOp.insertINE 3,
          DictOp.insertINE 20], 4⟩ 4).2 = false ∧
    (Dict.erase id natLt
      ⟨applyOps id natLt id AVLTree.nil
        [DictOp.insertINE 10, DictOp.insertINE 5, DictOp.insertINE 3,
          DictOp.insertINE 20], 4⟩ 5).2 = true ∧
    (Dict.erase id natLt
      ⟨applyOps id natLt id AVLTree.nil
        [DictOp.insertINE 10, DictOp.insertINE 5, DictOp.insertINE 3,
          DictOp.insertINE 20], 4⟩ 5).1.size_ + 1 = 4 := by
  refine ⟨?_, ?_, ?_⟩
  · exact ((claim_C2_amended id natLt natLt_swo
      ⟨applyOps id natLt id AVLTree.nil
        [DictOp.insertINE 10, DictOp.insertINE 5, DictOp.insertINE 3,
          DictOp.insertINE 20], 4⟩ 4 (by decide) (by decide)
      (by unfold SortedKeys; decide) (by decide)).1 (by decide)).1
  · exact ((claim_C2_amended id natLt natLt_swo
      ⟨applyOps id natLt id AVLTree.nil
        [DictOp.insertINE 10, DictOp.insertINE 5, DictOp.insertINE 3,
          DictOp.insertINE 20], 4⟩ 5 (by decide) (by decide)
      (by unfold SortedKeys; decide) (by decide)).2 (by decide)).1
  · exact ((claim_C2_amended id natLt natLt_swo
      ⟨applyOps id natLt id AVLTree.nil
        [DictOp.insertINE 10, DictOp.insertINE 5, DictOp.insertINE 3,
          DictOp.insertINE 20], 4⟩ 5 (by decide) (by decide)
      (by unfold SortedKeys; decide) (by decide)).2 (by decide)).2.1

end AVLTree

namespace AVLTree

theorem filter_eq_nil_of_no_equiv {key : π → κ} {cmp : κ → κ → Bool}
    {L : List π} {k : κ}
    (h : ∀ y ∈ L, cmp (key y) k = true ∨ cmp k (key y) = true) :
    L.filter (fun x => !cmp (key x) k && !cmp k (key x)) = [] := by
  rw [List.filter_eq_nil_iff]
  intro a ha hcon
  simp only [Bool.and_eq_true, Bool.not_eq_true'] at hcon
  rcases h a ha with hh | hh
  · rw [hcon.1] at hh; cases hh
  · rw [hcon.2] at hh; cases hh

/-- Around an element `e` equivalent to `k` inside a strictly sorted
sequence, no other element is equivalent to `k`. -/
theorem strict_no_equiv_side {key : π → κ} {cmp : κ → κ → Bool}
    (swo : IsSWO cmp) {A B : List π} {e : π} {k : κ}
    (hss : StrictSortedKeys key cmp (A ++ e :: B))
    (h1 : cmp (key e) k = false) (h2 : cmp k (key e) = false) :
    ∀ y ∈ A ++ B, cmp (key y) k = true ∨ cmp k (key y) = true := by
  unfold StrictSortedKeys at hss
  rw [List.pairwise_append] at hss
  obtain ⟨pA, pB, cross⟩ := hss
  intro y hy
  rcases List.mem_append.1 hy with hy | hy
  · have hc := cross y hy e (by simp)
    by_contra hcon
    simp only [not_or, Bool.not_eq_true] at hcon
    have : cmp (key y) (key e) = false :=
      swo.le_trans (key e) k (key y) h2 hcon.1
    rw [this] at hc; cases hc
  · have hc := (List.pairwise_cons.1 pB).1 y hy
    by_contra hcon
    simp only [not_or, Bool.not_eq_true] at hcon
    have : cmp (key e) (key y) = false :=
      swo.le_trans (key y) k (key e) hcon.2 h1
    rw [this] at hc; cases hc

/-- **C3.**  For every Set/Map dictionary tree satisfying the
invariants: `filter(condition)` removes exactly the elements on which the
condition is true (survivors keep their relative in-order order), the
result satisfies the height and balance invariants and is strictly
sorted; and with a condition that holds nowhere the tree is literally
unchanged. -/
theorem claim_C3 {π κ : Type} (key : π → κ) (cmp : κ → κ → Bool)
    (swo : IsSWO cmp) (cond : π → Bool) (t : AVLTree π)
    (it : hinv t = true) (bt : balanced t = true)
    (hss : StrictSortedKeys key cmp (toList t)) :
    toList (filter key cmp cond t) = (toList t).filter (fun e => !cond e) ∧
    hinv (filter key cmp cond t) = true ∧
    balanced (filter key cmp cond t) = true ∧
    StrictSortedKeys key cmp (toList (filter key cmp cond t)) ∧
    ((∀ e ∈ toList t, cond e = false) → filter key cmp cond t = t) := by
  obtain ⟨a, b, c, d⟩ := filter_spec swo cond t it bt hss
  exact ⟨a, b, c, d, fun hno => filter_noop cond t hno⟩

/-- **C3, witness.**  Filtering the even elements out of the set
`{1, 2, 3, 4, 5}` keeps exactly the odd ones, in order. -/
theorem claim_C3_witness :
    toList (filter id natLt (fun e => decide (e % 2 = 0))
        (applyOps id natLt id AVLTree.nil
          [DictOp.insertINE 1, DictOp.insertINE 2, DictOp.insertINE 3,
            DictOp.insertINE 4, DictOp.insertINE 5])) =
      (toList (applyOps id natLt id AVLTree.nil
          [DictOp.insertINE 1, DictOp.insertINE 2, DictOp.insertINE 3,
            DictOp.insertINE 4, DictOp.insertINE 5])).filter
        (fun e => !decide (e % 2 = 0)) :=
  (claim_C3 id natLt natLt_swo (fun e => decide (e % 2 = 0))
    (applyOps id natLt id AVLTree.nil
      [DictOp.insertINE 1, DictOp.insertINE 2, DictOp.insertINE 3,
        DictOp.insertINE 4, DictOp.insertINE 5])
    (by decide) (by decide) (by unfold StrictSortedKeys; decide)).1

end AVLTree

namespace AVLTree

/-- **C4.**  For every Map (strictly sorted keys, `size_` matching the
element count) holding an entry `eold` at key `old` and a colliding
entry `ecol` at key `new` (with `old` and `new` non-equivalent):
`alter_key(old, new)` returns `(changed = true, replaced_existing =
true)`, decreases `size()` by exactly one, the unique surviving entry
with key equivalent to `new` is `setk eold new` — the payload originally
stored under `old` with only its key field overwritten — and no entry
with key equivalent to `old` remains. -/
theorem claim_C4 {π κ : Type} (key : π → κ) (cmp : κ → κ → Bool)
    (setk : π → κ → π) (swo : IsSWO cmp) (d : Dict π) (old new : κ)
    (it : hinv d.root = true) (bt : balanced d.root = true)
    (hss : StrictSortedKeys key cmp (toList d.root))
    (hsz : d.size_ = (toList d.root).length)
    (hk : ∀ p k0, key (setk p k0) = k0)
    (eold ecol : π) (hein : eold ∈ toList d.root)
    (he1 : cmp (key eold) old = false) (he2 : cmp old (key eold) = false)
    (hcin : ecol ∈ toList d.root)
    (hc1 : cmp (key ecol) new = false) (hc2 : cmp new (key ecol) = false)
    (hne : cmp old new = true ∨ cmp new old = true) :
    (Dict.alterKeyMap key cmp setk d old new).2 = (true, true) ∧
    (Dict.alterKeyMap key cmp setk d old new).1.size_ + 1 = d.size_ ∧
    (toList (Dict.alterKeyMap key cmp setk d old new).1.root).filter
        (fun x => !cmp (key x) new && !cmp new (key x)) =
      [setk eold new] ∧
    (toList (Dict.alterKeyMap key cmp setk d old new).1.root).filter
        (fun x => !cmp (key x) old && !cmp old (key x)) = [] := by
  have hw : SortedKeys key cmp (toList d.root) :=
    strictSortedKeys_sorted swo hss
  obtain ⟨t2, A, B, e, h0, heq, hsplit, hE1, hE2, hL2, hi2, hb2, _, _⟩ :=
    erase_impl_found swo d.root old it bt hw
      ⟨eold, hein, he1, he2⟩
  -- the pulled-out element is the entry stored at `old`
  have heeq : e = eold := by
    refine mem_strictSorted_unique hss (by rw [hsplit]; simp) hein ?_ ?_
    · exact swo.le_trans (key eold) old (key e) he2 hE1
    · exact swo.le_trans (key e) old (key eold) hE2 he1
  subst heeq
  have hpull : pull_out key cmp d.root old =
      (t2, some ⟨e, h0⟩) := by
    simp [pull_out, heq]
  -- the collision entry survives the pull-out
  have hcne : ecol ≠ e := by
    intro hcontra
    subst hcontra
    have hx1 : cmp old new = false :=
      swo.le_trans new (key ecol) old hc1 he2
    have hx2 : cmp new old = false :=
      swo.le_trans old (key ecol) new he1 hc2
    rcases hne with h | h
    · rw [hx1] at h; cases h
    · rw [hx2] at h; cases h
  have hcin2 : ecol ∈ toList t2 := by
    rw [hL2]
    rw [hsplit] at hcin
    rcases List.mem_append.1 hcin with h | h
    · exact List.mem_append_left _ h
    · rcases List.mem_cons.1 h with h | h
      · exact absurd h hcne
      · exact List.mem_append_right _ h
  have hss2 : StrictSortedKeys key cmp (toList t2) := by
    rw [hL2]
    rw [hsplit] at hss
    exact pairwise_remove_middle hss
  have hw2 : SortedKeys key cmp (toList t2) :=
    strictSortedKeys_sorted swo hss2
  obtain ⟨t3, A2, B2, e2, hior, hsplit2, hf1, hf2, hL3, _, _, _⟩ :=
    ior_found_spec swo t2 ⟨setk e new, h0⟩ hi2 hb2 hw2
      ⟨ecol, hcin2, by rw [hk]; exact hc1, by rw [hk]; exact hc2⟩
  rw [hk] at hf1 hf2
  have hres : Dict.alterKeyMap key cmp setk d old new =
      (⟨t3, d.size_ - 1⟩, (true, true)) := by
    simp [Dict.alterKeyMap, hpull, hior]
  have hpos : 0 < d.size_ := by
    rw [hsz, hsplit]; simp
  -- the two no-equivalent-key side facts
  have hsideOld : ∀ y ∈ A ++ B,
      cmp (key y) old = true ∨ cmp old (key y) = true :=
    strict_no_equiv_side swo (hsplit ▸ hss) he1 he2
  have hsideNew : ∀ y ∈ A2 ++ B2,
      cmp (key y) new = true ∨ cmp new (key y) = true :=
    strict_no_equiv_side swo (hsplit2 ▸ hss2) hf1 hf2
  have hmem : ∀ y, y ∈ A2 ++ B2 → y ∈ A ++ B := by
    intro y hy
    have h1 : y ∈ A2 ++ e2 :: B2 := by
      rcases List.mem_append.1 hy with h | h
      · exact List.mem_append_left _ h
      · exact List.mem_append_right _ (List.mem_cons_of_mem _ h)
    rw [← hsplit2, hL2] at h1
    exact h1
  refine ⟨by rw [hres], ?_, ?_, ?_⟩
  · rw [hres]
    show d.size_ - 1 + 1 = d.size_
    omega
  · rw [hres]
    show (toList t3).filter _ = _
    rw [hL3, List.filter_append, List.filter_cons]
    have hA2 : A2.filter
        (fun x => !cmp (key x) new && !cmp new (key x)) = [] :=
      filter_eq_nil_of_no_equiv fun y hy =>
        hsideNew y (List.mem_append_left _ hy)
    have hB2 : B2.filter
        (fun x => !cmp (key x) new && !cmp new (key x)) = [] :=
      filter_eq_nil_of_no_equiv fun y hy =>
        hsideNew y (List.mem_append_right _ hy)
    have hself : cmp (key (setk e new)) new = false ∧
        cmp new (key (setk e new)) = false := by
      rw [hk]; exact ⟨swo.irrefl new, swo.irrefl new⟩
    simp [hA2, hB2, hself.1, hself.2]
  · rw [hres]
    show (toList t3).filter _ = _
    rw [hL3, List.filter_append, List.filter_cons]
    have hA2 : A2.filter
        (fun x => !cmp (key x) old && !cmp old (key x)) = [] :=
      filter_eq_nil_of_no_equiv fun y hy =>
        hsideOld y (hmem y (List.mem_append_left _ hy))
    have hB2 : B2.filter
        (fun x => !cmp (key x) old && !cmp old (key x)) = [] :=
      filter_eq_nil_of_no_equiv fun y hy =>
        hsideOld y (hmem y (List.mem_append_right _ hy))
    have hx : (!cmp (key (setk e new)) old &&
        !cmp old (key (setk e new))) = false := by
      rw [hk]
      rcases hne with h | h
      · rw [h]; simp
      · rw [h]; simp
    simp [hA2, hB2, hx]

/-- **C4, witness.**  In the map `{1 ↦ 10, 2 ↦ 20, 3 ↦ 30}`,
`alter_key(1, 3)` reports `(true, true)`, shrinks the map from 3 to 2
entries, and the surviving entry at key 3 carries the value 10 that was
stored under key 1. -/
theorem claim_C4_witness :
    (Dict.alterKeyMap pfst natLt (fun p k0 => (k0, p.2))
        ⟨[((1 : Nat), (10 : Nat)), (2, 20), (3, 30)].foldl
          (fun t q => (insert_if_not_exists pfst natLt t ⟨q, 0⟩).1)
          AVLTree.nil, 3⟩ 1 3).2 = (true, true) ∧
    (Dict.alterKeyMap pfst natLt (fun p k0 => (k0, p.2))
        ⟨[((1 : Nat), (10 : Nat)), (2, 20), (3, 30)].foldl
          (fun t q => (insert_if_not_exists pfst natLt t ⟨q, 0⟩).1)
          AVLTree.nil, 3⟩ 1 3).1.size_ + 1 = 3 ∧
    (toList (Dict.alterKeyMap pfst natLt (fun p k0 => (k0, p.2))
        ⟨[((1 : Nat), (10 : Nat)), (2, 20), (3, 30)].foldl
          (fun t q => (insert_if_not_exists pfst natLt t ⟨q, 0⟩).1)
          AVLTree.nil, 3⟩ 1 3).1.root).filter
      (fun x => !natLt (pfst x) 3 && !natLt 3 (pfst x)) = [(3, 10)] := by
  have h := claim_C4 pfst natLt (fun p k0 => (k0, p.2)) natLt_swo
    ⟨[((1 : Nat), (10 : Nat)), (2, 20), (3, 30)].foldl
      (fun t q => (insert_if_not_exists pfst natLt t ⟨q, 0⟩).1)
      AVLTree.nil, 3⟩ 1 3
    (by decide) (by decide) (by unfold StrictSortedKeys; decide)
    (by decide) (fun p k0 => rfl) (1, 10) (3, 30)
    (by decide) (by decide) (by decide) (by decide) (by decide) (by decide)
    (by decide)
  exact ⟨h.1, h.2.1, h.2.2.1⟩

end AVLTree

namespace AVLTree

/-- **C5.**  Inserting into a Set a payload whose key is already present
leaves the dictionary (tree and `size()`) unchanged and reports `false`;
`Map.operator[]` on a present key likewise leaves the dictionary
unchanged and returns the payload of the originally stored element (the
candidate node allocated for the attempt is deallocated again,
`size_ + 1 - 1`). -/
theorem claim_C5 {π κ : Type} (key : π → κ) (cmp : κ → κ → Bool)
    (mk : κ → π) (swo : IsSWO cmp) (d : Dict π) (v : π) (k : κ)
    (it : hinv d.root = true) (bt : balanced d.root = true)
    (hw : SortedKeys key cmp (toList d.root))
    (hdup : ∃ e ∈ toList d.root,
      cmp (key e) (key v) = false ∧ cmp (key v) (key e) = false)
    (hdupk : ∃ e ∈ toList d.root,
      cmp (key e) k = false ∧ cmp k (key e) = false) :
    ((Dict.emplaceSet key cmp d v).1 = d ∧
     (Dict.emplaceSet key cmp d v).2 = false) ∧
    ((Dict.getOrEmplace key cmp mk d k).1 = d ∧
     (Dict.getOrEmplace key cmp mk d k).2 ∈ toList d.root ∧
     cmp (key (Dict.getOrEmplace key cmp mk d k).2) k = false ∧
     cmp k (key (Dict.getOrEmplace key cmp mk d k).2) = false) := by
  obtain ⟨p0, heq, hm, h1, h2⟩ := ife_found_spec swo d.root v it bt hw hdup
  obtain ⟨p1, heq2, hm2, h3, h4⟩ :=
    eine_found_spec swo mk d.root k it bt hw hdupk
  have hp1 : (Dict.getOrEmplace key cmp mk d k).2 = p1 := by
    simp [Dict.getOrEmplace, heq2]
  refine ⟨⟨?_, ?_⟩, ?_, ?_, ?_, ?_⟩
  · simp [Dict.emplaceSet, heq]
  · simp [Dict.emplaceSet, heq]
  · simp [Dict.getOrEmplace, heq2]
  · rw [hp1]; exact hm2
  · rw [hp1]; exact h3
  · rw [hp1]; exact h4

/-- **C5, witness.**  Re-inserting 2 into the set `{1, 2, 3}` and
reading `map[2]` on the same stored elements: the dictionary is
untouched, the report is `false`, and the returned payload is the
originally stored element 2. -/
theorem claim_C5_witness :
    ((Dict.emplaceSet id natLt
        ⟨applyOps id natLt id AVLTree.nil
          [DictOp.insertINE 1, DictOp.insertINE 2, DictOp.insertINE 3],
          3⟩ 2).1 =
      ⟨applyOps id natLt id AVLTree.nil
        [DictOp.insertINE 1, DictOp.insertINE 2, DictOp.insertINE 3],
        3⟩ ∧
     (Dict.emplaceSet id natLt
        ⟨applyOps id natLt id AVLTree.nil
          [DictOp.insertINE 1, DictOp.insertINE 2, DictOp.insertINE 3],
          3⟩ 2).2 = false) ∧
    ((Dict.getOrEmplace id natLt id
        ⟨applyOps id natLt id AVLTree.nil
          [DictOp.insertINE 1, DictOp.insertINE 2, DictOp.insertINE 3],
          3⟩ 2).1 =
      ⟨applyOps id natLt id AVLTree.nil
        [DictOp.insertINE 1, DictOp.insertINE 2, DictOp.insertINE 3],
        3⟩ ∧
     (Dict.getOrEmplace id natLt id
        ⟨applyOps id natLt id AVLTree.nil
          [DictOp.insertINE 1, DictOp.insertINE 2, DictOp.insertINE 3],
          3⟩ 2).2 ∈ toList (applyOps id natLt id AVLTree.nil
            [DictOp.insertINE 1, DictOp.insertINE 2, DictOp.insertINE 3]) ∧
     natLt (id (Dict.getOrEmplace id natLt id
        ⟨applyOps id natLt id AVLTree.nil
          [DictOp.insertINE 1, DictOp.insertINE 2, DictOp.insertINE 3],
          3⟩ 2).2) 2 = false ∧
     natLt 2 (id (Dict.getOrEmplace id natLt id
        ⟨applyOps id natLt id AVLTree.nil
          [DictOp.insertINE 1, DictOp.insertINE 2, DictOp.insertINE 3],
          3⟩ 2).2) = false) :=
  claim_C5 id natLt id natLt_swo
    ⟨applyOps id natLt id AVLTree.nil
      [DictOp.insertINE 1, DictOp.insertINE 2, DictOp.insertINE 3], 3⟩
    2 2 (by decide) (by decide) (by unfold SortedKeys; decide)
    (by decide) (by decide)

end AVLTree

namespace PoolState

/-- **C6, counterexample.**  With a `uint8_t` index type
(`max_capacity() = 255`) and a pool already at capacity 255,
`reserve_for(255)` — where `n = 255` does not exceed the current
capacity — throws AllocatorExhausted: the guard is `n < capacity()`, not
`n ≤ capacity()`, so the boundary case fails even though no growth and no
allocation is needed. -/
theorem claim_C6_counterexample :
    (PoolState.fresh 255 : PoolState Nat).capacity = 255 ∧
    PoolState.reserveFor 255 (PoolState.fresh 255 : PoolState Nat) 255 =
      Except.error PoolErr.allocatorExhausted := by
  exact ⟨rfl, rfl⟩

/-- **C6, amended.**  For every well-formed pool with
`1 ≤ capacity ≤ max_capacity`: `reserve_for(n)` with `n` strictly below
the capacity is a guaranteed no-op; `reserve_for(n)` fails exactly when
`n ≥ capacity` and the capacity is already maximal (even when
`n = capacity`, where nothing would need to grow); `allocate()` fails
exactly when the free list is empty and the capacity is already maximal;
and a successful growing `reserve_for(n)` reaches capacity at least `n`
without allocating any node (the free-list head is untouched) and
preserves every cell below the old capacity at its index. -/
theorem claim_C6_amended {ν : Type} (maxCap : Nat) (p : PoolState ν)
    (n : Nat) (hwf : PoolWF p) (h1 : 1 ≤ p.capacity)
    (h2 : p.capacity ≤ maxCap) :
    (n < p.capacity → reserveFor maxCap p n = Except.ok p) ∧
    (reserveFor maxCap p n = Except.error PoolErr.allocatorExhausted ↔
      ¬ n < p.capacity ∧ p.capacity = maxCap) ∧
    (allocate maxCap p = Except.error PoolErr.allocatorExhausted ↔
      p.head = p.capacity ∧ p.capacity = maxCap) ∧
    (¬ n < p.capacity → p.capacity ≠ maxCap →
      ∃ p', reserveFor maxCap p n = Except.ok p' ∧
        n ≤ p'.capacity ∧ p'.head = p.head ∧
        (∀ i, i < p.capacity → p'.data i = p.data i)) := by
  refine ⟨fun h => reserveFor_noop maxCap p n h,
    reserveFor_error_iff maxCap p n, allocate_error_iff maxCap p, ?_⟩
  intro hge hne
  obtain ⟨p', hok, hcap, _, hhead, hpres, _⟩ :=
    reserveFor_grow_spec maxCap p n hwf hge hne h1 h2
  exact ⟨p', hok, hcap, hhead, hpres⟩

set_option maxRecDepth 8192 in
/-- **C6, witness.**  On a fresh 2-slot pool with byte-sized indices,
`reserve_for(1)` is a no-op; and a pool already grown to the maximal
capacity 255 fails `reserve_for(255)`. -/
theorem claim_C6_witness :
    reserveFor 255 (PoolState.fresh 2 : PoolState Nat) 1 =
      Except.ok (PoolState.fresh 2) ∧
    reserveFor 255 (PoolState.fresh 255 : PoolState Nat) 255 =
      Except.error PoolErr.allocatorExhausted := by
  constructor
  · exact (claim_C6_amended 255 (PoolState.fresh 2 : PoolState Nat) 1
      (by unfold PoolWF; decide) (by decide) (by decide)).1 (by decide)
  · exact ((claim_C6_amended 255 (PoolState.fresh 255 : PoolState Nat) 255
      (by unfold PoolWF; decide) (by decide) (by decide)).2.1).mpr
      (by decide)

end PoolState

namespace AVLTree

/-- **C7.**  The `root == nil iff size() == 0` invariant is broken by
`clear()` whenever the node type is trivially destructible (every Set or
Map of scalars): `delete_subtree` returns immediately under
`if constexpr (std::is_trivially_destructible_v<Node>)`, so no
`deallocate_node` runs, `size_` keeps its old value and the nodes' slots
are never pushed back onto the free list, yet `root` is reset to `nil`.
After inserting one element into `AVLDictSet<int>` and calling
`clear()`, the dictionary has `root = nil` but `size() = 1`.  With a
non-trivially-destructible payload the per-node deallocation runs and
`size()` drops to 0 as the spec states. -/
theorem claim_C7 :
    Dict.clear true (Dict.emplaceSet id natLt Dict.empty 1).1 =
      (⟨AVLTree.nil, 1⟩ : Dict Nat) ∧
    Dict.clear false (Dict.emplaceSet id natLt Dict.empty 1).1 =
      (⟨AVLTree.nil, 0⟩ : Dict Nat) := by
  decide

end AVLTree

namespace PoolState

/-- **C9.**  Capacity growth is index-stable.  When a growth is possible
(`capacity < max_capacity`): `reserve_for(n)` with `n ≥ capacity`
returns a strictly larger pool in which every cell below the old
capacity — every occupied node and every free slot's next pointer — is
preserved bit-for-bit at its index, and only the newly added region is
(re)threaded `ptr(i) = i + 1`; `allocate()` on an exhausted free list
(every slot occupied) likewise grows while preserving every old cell at
its handle, threading only the new region. -/
theorem claim_C9 {ν : Type} (maxCap : Nat) (p : PoolState ν) (n : Nat)
    (hwf : PoolWF p) (h1 : 1 ≤ p.capacity) (h2 : p.capacity ≤ maxCap)
    (hge : ¬ n < p.capacity) (hne : p.capacity ≠ maxCap) :
    (∃ p', reserveFor maxCap p n = Except.ok p' ∧
      p.capacity < p'.capacity ∧ n ≤ p'.capacity ∧
      (∀ i, i < p.capacity → p'.data i = p.data i) ∧
      (∀ i, p.capacity ≤ i → p'.data i = PoolCell.ptr (i + 1))) ∧
    (p.head = p.capacity →
      ∃ p' j, allocate maxCap p = Except.ok (p', j) ∧ j = p.head ∧
        (∀ i, i < p.capacity → p'.data i = p.data i) ∧
        (∀ i, p.capacity ≤ i → i < p'.capacity →
          p'.data i = PoolCell.ptr (i + 1))) := by
  constructor
  · obtain ⟨p', hok, hcap, hlt, _, hpres, hnew⟩ :=
      reserveFor_grow_spec maxCap p n hwf hge hne h1 h2
    exact ⟨p', hok, hlt, hcap, hpres, hnew⟩
  · intro hhead
    obtain ⟨p', j, hok, hj, hgrow, _⟩ :=
      allocate_spec maxCap p (fun hc => hne hc.2)
    obtain ⟨hpres, hnew⟩ := hgrow hhead
    exact ⟨p', j, hok, hj, hpres, hnew⟩

/-- **C9, witness.**  A 2-slot pool whose slot 0 holds the node 42:
growing it with `reserve_for(4)` leaves the node readable at the same
handle 0. -/
theorem claim_C9_witness :
    (reserveFor 255
        (⟨fun i => if i = 0 then PoolCell.val 42 else PoolCell.ptr (i + 1),
          2, 1⟩ : PoolState Nat) 4).map (fun q => q.data 0) =
      Except.ok (PoolCell.val 42) := by
  obtain ⟨p', hok, _, _, hpres, _⟩ := (claim_C9 255
    (⟨fun i => if i = 0 then PoolCell.val 42 else PoolCell.ptr (i + 1),
      2, 1⟩ : PoolState Nat) 4
    (by unfold PoolWF; decide) (by decide) (by decide) (by decide)
    (by decide)).1
  rw [hok]
  show Except.ok (p'.data 0) = Except.ok (PoolCell.val 42)
  rw [hpres 0 (by decide)]
  rfl

end PoolState

namespace AVLTree

/-- **C10.**  `front()`/`back()` on an empty dictionary (`root = nil`)
return the absent result; on a non-empty dictionary `front()` returns a
stored element none of whose fellow elements' keys compare less
(minimal) and `back()` one whose key compares less than no fellow
element's key (maximal).  Both are pure reads of the structure (`dirmost`
only follows child links). -/
theorem claim_C10 {π κ : Type} (key : π → κ) (cmp : κ → κ → Bool)
    (swo : IsSWO cmp) (d : Dict π)
    (hw : SortedKeys key cmp (toList d.root)) :
    (d.root = AVLTree.nil → Dict.front d = none ∧ Dict.back d = none) ∧
    (d.root ≠ AVLTree.nil →
      ∃ pf, Dict.front d = some pf ∧ pf ∈ toList d.root ∧
        ∀ e ∈ toList d.root, cmp (key e) (key pf) = false) ∧
    (d.root ≠ AVLTree.nil →
      ∃ pb, Dict.back d = some pb ∧ pb ∈ toList d.root ∧
        ∀ e ∈ toList d.root, cmp (key pb) (key e) = false) := by
  refine ⟨fun hnil => ?_, fun hne => ?_, fun hne => ?_⟩
  · rw [Dict.front, Dict.back, hnil]
    exact ⟨dirmost_nil false, dirmost_nil true⟩
  · have hne2 : toList d.root ≠ [] := fun h => hne (toList_eq_nil_iff.1 h)
    cases hL : toList d.root with
    | nil => exact absurd hL hne2
    | cons x xs =>
      refine ⟨x, ?_, ?_, ?_⟩
      · rw [Dict.front, dirmost_false_eq_head, hL]; rfl
      · exact List.mem_cons_self x xs
      · have hmin := sorted_head_min swo hw
          (show (toList d.root).head? = some x by rw [hL]; rfl)
        rw [hL] at hmin
        exact hmin
  · have hne2 : toList d.root ≠ [] := fun h => hne (toList_eq_nil_iff.1 h)
    have hgl : (toList d.root).getLast? =
        some ((toList d.root).getLast hne2) :=
      List.getLast?_eq_getLast _ hne2
    refine ⟨(toList d.root).getLast hne2, ?_, ?_, ?_⟩
    · rw [Dict.back, dirmost_true_eq_getLast]
      exact hgl
    · exact List.getLast_mem hne2
    · exact sorted_last_max swo hw hgl

/-- **C10, witness.**  Applied to the empty dictionary and to the set
`{1, 2, 3}` (inserted as 2, 1, 3): the empty dictionary yields `none`
twice, and in the populated set no element's key compares below the key
of `front() = 1`. -/
theorem claim_C10_witness :
    Dict.front (Dict.empty : Dict Nat) = none ∧
    Dict.back (Dict.empty : Dict Nat) = none ∧
    (∀ e ∈ toList (applyOps id natLt id AVLTree.nil
        [DictOp.insertINE 2, DictOp.insertINE 1, DictOp.insertINE 3]),
      natLt (id e) (id 1) = false) := by
  have h0 := (claim_C10 id natLt natLt_swo (Dict.empty : Dict Nat)
    (by unfold SortedKeys; decide)).1 rfl
  obtain ⟨pf, hf, _, hmin⟩ := (claim_C10 id natLt natLt_swo
    ⟨applyOps id natLt id AVLTree.nil
      [DictOp.insertINE 2, DictOp.insertINE 1, DictOp.insertINE 3], 3⟩
    (by unfold SortedKeys; decide)).2.1 (by decide)
  have hfront : Dict.front
      (⟨applyOps id natLt id AVLTree.nil
        [DictOp.insertINE 2, DictOp.insertINE 1, DictOp.insertINE 3], 3⟩ :
        Dict Nat) = some 1 := by decide
  rw [hfront] at hf
  obtain rfl : pf = 1 := (Option.some.inj hf).symm
  exact ⟨h0.1, h0.2, hmin⟩

end AVLTree
